import Mathlib

set_option maxHeartbeats 1000000

/- Shallow embedding of rexologue/isopy (src/isopy/cli.py and
   src/scripts/build-index.py).  Python strings are modelled as `List Char`,
   filesystem paths as lists of path components, and dicts as association
   lists preserving insertion order (Python dicts iterate in insertion
   order).  Machine behaviour that is environment-dependent (network
   responses, archive contents, pre-existing files) is passed in explicitly
   as state. -/

abbrev Str := List Char

/-- ASCII decimal digit test, the `\d` of the source's regexes restricted to
ASCII (version numbers in the wild are ASCII). -/
def isDigitChar (c : Char) : Bool := 48 ≤ c.toNat && c.toNat ≤ 57

/-- Digit character for a value below ten. -/
def digitChar (n : Nat) : Char :=
  if n = 0 then '0' else if n = 1 then '1' else if n = 2 then '2'
  else if n = 3 then '3' else if n = 4 then '4' else if n = 5 then '5'
  else if n = 6 then '6' else if n = 7 then '7' else if n = 8 then '8' else '9'

/-- Numeric value of an ASCII digit character. -/
def charVal (c : Char) : Nat := c.toNat - 48

/-- Python `int(s)` on a string of ASCII digits. -/
def digitsVal (l : Str) : Nat := l.foldl (fun n c => 10 * n + charVal c) 0

/-- Decimal rendering of a natural number, fuel-based so that it reduces
definitionally (fuel `n + 1` always suffices since `n / 10` shrinks). -/
def natDigitsAux : Nat → Nat → Str
  | 0, _ => []
  | fuel + 1, n =>
    if n < 10 then [digitChar n]
    else natDigitsAux fuel (n / 10) ++ [digitChar (n % 10)]

/-- Decimal rendering of a natural number (Python `str(n)`). -/
def natDigits (n : Nat) : Str := natDigitsAux (n + 1) n

/-- The version string `a.b.c`, as produced by canonical decimal numerals. -/
def verStr (a b c : Nat) : Str :=
  natDigits a ++ '.' :: (natDigits b ++ '.' :: natDigits c)

/-- The branch string `x.y`. -/
def branchStr (x y : Nat) : Str := natDigits x ++ '.' :: natDigits y

theorem charVal_digitChar (n : Nat) (h : n < 10) : charVal (digitChar n) = n := by
  interval_cases n <;> decide

theorem isDigitChar_digitChar (n : Nat) : isDigitChar (digitChar n) = true := by
  unfold digitChar
  split_ifs <;> decide

theorem natDigitsAux_succ (fuel n : Nat) :
    natDigitsAux (fuel + 1) n =
      if n < 10 then [digitChar n]
      else natDigitsAux fuel (n / 10) ++ [digitChar (n % 10)] := rfl

theorem natDigitsAux_foldl (fuel : Nat) :
    ∀ n acc, n ≤ fuel →
      (natDigitsAux (fuel + 1) n).foldl (fun m c => 10 * m + charVal c) acc =
        acc * 10 ^ (natDigitsAux (fuel + 1) n).length + n := by
  induction fuel with
  | zero =>
    intro n acc hn
    have h0 : n = 0 := Nat.le_zero.mp hn
    subst h0
    simp [natDigitsAux, charVal_digitChar]
    ring
  | succ fuel ih =>
    intro n acc hn
    by_cases h : n < 10
    · simp [natDigitsAux_succ, h, charVal_digitChar n h]
      ring
    · have hrec : n / 10 ≤ fuel := by
        have h10 : 10 ≤ n := Nat.le_of_not_lt h
        have hlt : n / 10 < n := Nat.div_lt_self (by omega) (by omega)
        omega
      rw [natDigitsAux_succ, if_neg h, List.foldl_append, List.length_append,
        ih (n / 10) acc hrec]
      simp only [List.foldl_cons, List.foldl_nil, List.length_cons,
        List.length_nil, Nat.zero_add,
        charVal_digitChar (n % 10) (Nat.mod_lt n (by omega))]
      rw [pow_succ]
      calc 10 * (acc * 10 ^ (natDigitsAux (fuel + 1) (n / 10)).length + n / 10) + n % 10
          = acc * (10 ^ (natDigitsAux (fuel + 1) (n / 10)).length * 10) +
              (10 * (n / 10) + n % 10) := by ring
        _ = acc * (10 ^ (natDigitsAux (fuel + 1) (n / 10)).length * 10) + n := by
              rw [Nat.div_add_mod]

theorem digitsVal_natDigits (n : Nat) : digitsVal (natDigits n) = n := by
  have := natDigitsAux_foldl n n 0 (Nat.le_refl n)
  simpa [digitsVal, natDigits] using this

theorem natDigits_injective {m n : Nat} (h : natDigits m = natDigits n) : m = n := by
  have hm := digitsVal_natDigits m
  have hn := digitsVal_natDigits n
  rw [h] at hm
  omega

theorem natDigits_ne_nil (n : Nat) : natDigits n ≠ [] := by
  unfold natDigits natDigitsAux
  by_cases h : n < 10 <;> simp [h]

theorem isDigitChar_mem_natDigitsAux (fuel : Nat) :
    ∀ n c, c ∈ natDigitsAux fuel n → isDigitChar c = true := by
  induction fuel with
  | zero => intro n c hc; simp [natDigitsAux] at hc
  | succ fuel ih =>
    intro n c hc
    by_cases h : n < 10
    · simp [natDigitsAux, h] at hc
      simp [hc, isDigitChar_digitChar]
    · simp [natDigitsAux, h] at hc
      rcases hc with hc | hc
      · exact ih _ _ hc
      · simp [hc, isDigitChar_digitChar]

theorem isDigitChar_mem_natDigits {n : Nat} {c : Char} (hc : c ∈ natDigits n) :
    isDigitChar c = true :=
  isDigitChar_mem_natDigitsAux (n + 1) n c hc

theorem dot_not_digit : isDigitChar '.' = false := by decide

theorem dot_not_mem_natDigits (n : Nat) : '.' ∉ natDigits n := by
  intro h
  have := isDigitChar_mem_natDigits h
  simp [dot_not_digit] at this


/-- Python `s.split(sep)` for a one-character separator: `"a.b".split(".") =
["a","b"]`, `"".split(".") = [""]`, `".x".split(".") = ["", "x"]`. -/
def splitSep (sep : Char) : Str → List Str
  | [] => [[]]
  | c :: rest =>
    let r := splitSep sep rest
    if c = sep then [] :: r
    else
      match r with
      | [] => [[c]]
      | g :: gs => (c :: g) :: gs

/-- Python `sep.join(groups)` for a one-character separator. -/
def joinSep (sep : Char) : List Str → Str
  | [] => []
  | [g] => g
  | g :: gs => g ++ sep :: joinSep sep gs

theorem splitSep_ne_nil (sep : Char) (l : Str) : splitSep sep l ≠ [] := by
  induction l with
  | nil => simp [splitSep]
  | cons c rest ih =>
    simp only [splitSep]
    by_cases h : c = sep
    · simp [h]
    · simp only [if_neg h]
      cases hr : splitSep sep rest with
      | nil => simp
      | cons g gs => simp

theorem splitSep_no_sep {sep : Char} {g : Str} (hg : sep ∉ g) :
    splitSep sep g = [g] := by
  induction g with
  | nil => rfl
  | cons c rest ih =>
    have hc : c ≠ sep := fun h => hg (by simp [h])
    have hrest : sep ∉ rest := fun h => hg (by simp [h])
    simp only [splitSep, if_neg hc, ih hrest]

theorem splitSep_append_sep {sep : Char} {g : Str} (hg : sep ∉ g) (rest : Str) :
    splitSep sep (g ++ sep :: rest) = g :: splitSep sep rest := by
  induction g with
  | nil => simp [splitSep]
  | cons c g' ih =>
    have hc : c ≠ sep := fun h => hg (by simp [h])
    have hg' : sep ∉ g' := fun h => hg (by simp [h])
    show splitSep sep (c :: (g' ++ sep :: rest)) = (c :: g') :: splitSep sep rest
    simp only [splitSep, if_neg hc, List.append_eq, ih hg']

/-- Nonempty all-digit group: one `\d+` of the source's regexes. -/
def isDigits (l : Str) : Bool := !l.isEmpty && l.all isDigitChar

/-- `_RX_BRANCH  = re.compile(r"^\d+\.\d+$")` (src/isopy/cli.py line 38). -/
def rx_branch (s : Str) : Bool :=
  match splitSep '.' s with
  | [a, b] => isDigits a && isDigits b
  | _ => false

/-- `_RX_FULLVER = re.compile(r"^\d+\.\d+\.\d+$")` (src/isopy/cli.py line 39). -/
def rx_fullver (s : Str) : Bool :=
  match splitSep '.' s with
  | [a, b, c] => isDigits a && isDigits b && isDigits c
  | _ => false

theorem isDigits_natDigits (n : Nat) : isDigits (natDigits n) = true := by
  have hne := natDigits_ne_nil n
  cases h : natDigits n with
  | nil => exact absurd h hne
  | cons c cs =>
    have hall : ∀ d ∈ c :: cs, isDigitChar d = true := fun d hd =>
      @isDigitChar_mem_natDigits n d (by rw [h]; exact hd)
    simp only [isDigits, List.isEmpty_cons, Bool.not_false, Bool.true_and]
    exact List.all_eq_true.mpr hall

theorem rx_branch_branchStr (x y : Nat) : rx_branch (branchStr x y) = true := by
  unfold rx_branch branchStr
  rw [splitSep_append_sep (dot_not_mem_natDigits x),
    splitSep_no_sep (dot_not_mem_natDigits y)]
  simp [isDigits_natDigits]

theorem rx_fullver_verStr (a b c : Nat) : rx_fullver (verStr a b c) = true := by
  unfold rx_fullver verStr
  rw [splitSep_append_sep (dot_not_mem_natDigits a),
    splitSep_append_sep (dot_not_mem_natDigits b),
    splitSep_no_sep (dot_not_mem_natDigits c)]
  simp [isDigits_natDigits]

theorem splitSep_verStr (a b c : Nat) :
    splitSep '.' (verStr a b c) = [natDigits a, natDigits b, natDigits c] := by
  unfold verStr
  rw [splitSep_append_sep (dot_not_mem_natDigits a),
    splitSep_append_sep (dot_not_mem_natDigits b),
    splitSep_no_sep (dot_not_mem_natDigits c)]

theorem branchStr_not_fullver (x y : Nat) : rx_fullver (branchStr x y) = false := by
  unfold rx_fullver branchStr
  rw [splitSep_append_sep (dot_not_mem_natDigits x),
    splitSep_no_sep (dot_not_mem_natDigits y)]

theorem verStr_not_branch (a b c : Nat) : rx_branch (verStr a b c) = false := by
  unfold rx_branch
  rw [splitSep_verStr]

/-- Python `s.startswith(p)` on character lists. -/
def isPre : Str → Str → Bool
  | [], _ => true
  | _ :: _, [] => false
  | a :: as, b :: bs => a == b && isPre as bs

theorem isPre_iff {l₁ l₂ : Str} : isPre l₁ l₂ = true ↔ l₁ <+: l₂ := by
  induction l₁ generalizing l₂ with
  | nil => simp [isPre]
  | cons a as ih =>
    cases l₂ with
    | nil => simp [isPre, List.prefix_nil]
    | cons b bs => simp [isPre, List.cons_prefix_cons, ih]

/-- A digit-group followed by a dot is a prefix of another iff the groups
agree and the remainders are in prefix relation: the first dot in each side
pins the group boundary. -/
theorem digitsDotPre {x a : Str} (hx : ∀ c ∈ x, isDigitChar c = true)
    (ha : ∀ c ∈ a, isDigitChar c = true) (r1 r2 : Str) :
    (x ++ '.' :: r1) <+: (a ++ '.' :: r2) ↔ (x = a ∧ r1 <+: r2) := by
  induction x generalizing a with
  | nil =>
    cases a with
    | nil => simp [List.cons_prefix_cons]
    | cons c a' =>
      simp only [List.nil_append, List.cons_append, List.cons_prefix_cons]
      have hc := ha c (by simp)
      constructor
      · rintro ⟨h1, _⟩
        rw [← h1] at hc
        simp [dot_not_digit] at hc
      · rintro ⟨h, _⟩
        exact absurd h (by simp)
  | cons c x' ih =>
    cases a with
    | nil =>
      simp only [List.cons_append, List.nil_append, List.cons_prefix_cons]
      have hc := hx c (by simp)
      constructor
      · rintro ⟨h1, _⟩
        rw [h1] at hc
        simp [dot_not_digit] at hc
      · rintro ⟨h, _⟩
        exact absurd h (by simp)
    | cons d a' =>
      simp only [List.cons_append, List.cons_prefix_cons]
      rw [ih (fun e he => hx e (by simp [he])) (fun e he => ha e (by simp [he]))]
      constructor
      · rintro ⟨h1, h2, h3⟩
        exact ⟨by rw [h1, h2], h3⟩
      · rintro ⟨h, h3⟩
        injection h with h1 h2
        exact ⟨h1, h2, h3⟩

/-- `v.startswith(branch + ".")` on canonical version strings holds exactly
when the first two numeric components agree with the branch. -/
theorem branch_isPre_verStr (x y a b c : Nat) :
    isPre (branchStr x y ++ ['.']) (verStr a b c) = true ↔ (x = a ∧ y = b) := by
  rw [isPre_iff]
  have hshape : branchStr x y ++ ['.'] =
      natDigits x ++ '.' :: (natDigits y ++ '.' :: ([] : Str)) := by
    simp [branchStr]
  rw [hshape]
  unfold verStr
  rw [digitsDotPre (fun c hc => isDigitChar_mem_natDigits hc)
    (fun c hc => isDigitChar_mem_natDigits hc)]
  rw [digitsDotPre (fun c hc => isDigitChar_mem_natDigits hc)
    (fun c hc => isDigitChar_mem_natDigits hc)]
  constructor
  · rintro ⟨h1, h2, _⟩
    exact ⟨natDigits_injective h1, natDigits_injective h2⟩
  · rintro ⟨h1, h2⟩
    exact ⟨by rw [h1], by rw [h2], List.nil_prefix⟩

theorem charToNat_injective : Function.Injective Char.toNat := by
  intro a b h
  have hv : a.val.toNat = b.val.toNat := h
  exact Char.ext (UInt32.toNat.inj hv)

/-- Lexicographic strict comparison keyed by `f`: Python `<` on int tuples
(`f = id`) and on strings (`f = Char.toNat`, code-point order).  A strict
prefix compares below the longer sequence, as in Python. -/
def lexLt (f : α → Nat) : List α → List α → Bool
  | [], [] => false
  | [], _ :: _ => true
  | _ :: _, [] => false
  | a :: as, b :: bs =>
    if f a < f b then true else if f b < f a then false else lexLt f as bs

theorem lexLt_irrefl (f : α → Nat) : ∀ l, lexLt f l l = false := by
  intro l
  induction l with
  | nil => rfl
  | cons a as ih => simp [lexLt, ih]

theorem lexLt_trans {f : α → Nat} :
    ∀ {a b c : List α}, lexLt f a b = true → lexLt f b c = true →
      lexLt f a c = true := by
  intro a
  induction a with
  | nil =>
    intro b c hab hbc
    cases b with
    | nil => exact absurd hab (by simp [lexLt])
    | cons y ys =>
      cases c with
      | nil => exact absurd hbc (by simp [lexLt])
      | cons z zs => simp [lexLt]
  | cons x xs ih =>
    intro b c hab hbc
    cases b with
    | nil => exact absurd hab (by simp [lexLt])
    | cons y ys =>
      cases c with
      | nil => exact absurd hbc (by simp [lexLt])
      | cons z zs =>
        simp only [lexLt] at hab hbc ⊢
        split_ifs at hab hbc ⊢ with h1 h2 h3 h4 h5 h6 <;>
          first
          | rfl
          | omega
          | (exact ih hab hbc)

theorem lexLt_trichotomy {f : α → Nat} (hf : Function.Injective f) :
    ∀ a b : List α, lexLt f a b = true ∨ a = b ∨ lexLt f b a = true := by
  intro a
  induction a with
  | nil =>
    intro b
    cases b with
    | nil => right; left; rfl
    | cons y ys => left; simp [lexLt]
  | cons x xs ih =>
    intro b
    cases b with
    | nil => right; right; simp [lexLt]
    | cons y ys =>
      by_cases h1 : f x < f y
      · left; simp [lexLt, h1]
      · by_cases h2 : f y < f x
        · right; right; simp [lexLt, h2]
        · have hxy : x = y := hf (by omega)
          subst hxy
          rcases ih ys with h | h | h
          · left; simp [lexLt, h]
          · right; left; rw [h]
          · right; right; simp [lexLt, h]

theorem lexLt_of_lt_of_not_lt {f : α → Nat} (hf : Function.Injective f)
    {a b c : List α} (hab : lexLt f a b = true) (hcb : lexLt f c b = false) :
    lexLt f a c = true := by
  rcases lexLt_trichotomy hf a c with h | h | h
  · exact h
  · subst h
    rw [hab] at hcb
    exact absurd hcb (by simp)
  · have := lexLt_trans h hab
    rw [this] at hcb
    exact absurd hcb (by simp)

/-- Python `<` on int tuples. -/
def tupLt (a b : List Nat) : Bool := lexLt (fun n => n) a b

theorem tupLt_trans {a b c : List Nat} (h1 : tupLt a b = true)
    (h2 : tupLt b c = true) : tupLt a c = true :=
  lexLt_trans h1 h2

theorem tupLt_of_lt_of_not_lt {a b c : List Nat} (h1 : tupLt a b = true)
    (h2 : tupLt c b = false) : tupLt a c = true :=
  lexLt_of_lt_of_not_lt (fun _ _ h => h) h1 h2

theorem tupLt_irrefl (a : List Nat) : tupLt a a = false :=
  lexLt_irrefl _ a

/-- `tuple(map(int, s.split(".")))`, the sort key of `_latest_patch`
(src/isopy/cli.py line 97). -/
def tripleOf (s : Str) : List Nat := (splitSep '.' s).map digitsVal

/-- Python `max(vs, key=key)`: the first element whose key no element
strictly exceeds; `None` is modelled by the empty-list guard in the caller. -/
def maxByKey (key : Str → List Nat) : List Str → Option Str
  | [] => none
  | v :: vs =>
    some (vs.foldl (fun best x => if tupLt (key best) (key x) then x else best) v)

theorem foldl_maxBy_mem (key : Str → List Nat) (vs : List Str) :
    ∀ v, vs.foldl (fun best x => if tupLt (key best) (key x) then x else best) v
      ∈ v :: vs := by
  induction vs with
  | nil => intro v; simp
  | cons x xs ih =>
    intro v
    simp only [List.foldl_cons]
    have h := ih (if tupLt (key v) (key x) then x else v)
    rcases List.mem_cons.mp h with h1 | h1
    · rw [h1]
      split
      · simp
      · simp
    · simp [h1]

theorem foldl_maxBy_not_lt (key : Str → List Nat) (vs : List Str) :
    ∀ v x, x ∈ v :: vs →
      tupLt
        (key (vs.foldl (fun best y => if tupLt (key best) (key y) then y else best) v))
        (key x) = false := by
  induction vs with
  | nil =>
    intro v x hx
    simp only [List.mem_singleton] at hx
    subst hx
    simp only [List.foldl_nil]
    exact lexLt_irrefl _ _
  | cons y ys ih =>
    intro v x hx
    simp only [List.foldl_cons]
    rcases List.mem_cons.mp hx with h1 | h1
    · subst h1
      by_cases hc : tupLt (key x) (key y) = true
      · rw [if_pos hc]
        have hry := ih y y (by simp)
        by_contra hcon
        rw [Bool.not_eq_false] at hcon
        have hxy := tupLt_trans hcon hc
        rw [hxy] at hry
        exact absurd hry (by simp)
      · rw [if_neg hc]
        exact ih x x (by simp)
    · rcases List.mem_cons.mp h1 with h2 | h2
      · subst h2
        by_cases hc : tupLt (key v) (key x) = true
        · rw [if_pos hc]
          exact ih x x (by simp)
        · rw [if_neg hc]
          have hrv := ih v v (by simp)
          by_contra hcon
          rw [Bool.not_eq_false] at hcon
          have hvx : tupLt (key v) (key x) = false := by
            rw [Bool.not_eq_true] at hc
            exact hc
          have := tupLt_of_lt_of_not_lt hcon hvx
          rw [this] at hrv
          exact absurd hrv (by simp)
      · by_cases hc : tupLt (key v) (key y) = true
        · rw [if_pos hc]
          exact ih y x (List.mem_cons_of_mem _ h2)
        · rw [if_neg hc]
          exact ih v x (List.mem_cons_of_mem _ h2)

theorem maxByKey_mem {key : Str → List Nat} {l : List Str} {r : Str}
    (h : maxByKey key l = some r) : r ∈ l := by
  cases l with
  | nil => simp [maxByKey] at h
  | cons v vs =>
    simp only [maxByKey, Option.some.injEq] at h
    rw [← h]
    exact foldl_maxBy_mem key vs v

theorem maxByKey_not_lt {key : Str → List Nat} {l : List Str} {r : Str}
    (h : maxByKey key l = some r) :
    ∀ x ∈ l, tupLt (key r) (key x) = false := by
  cases l with
  | nil => simp [maxByKey] at h
  | cons v vs =>
    simp only [maxByKey, Option.some.injEq] at h
    intro x hx
    rw [← h]
    exact foldl_maxBy_not_lt key vs v x hx

theorem maxByKey_ne_none {key : Str → List Nat} {l : List Str} (h : l ≠ []) :
    ∃ r, maxByKey key l = some r := by
  cases l with
  | nil => exact absurd rfl h
  | cons v vs => exact ⟨_, rfl⟩

abbrev Assets := List (Str × Str)

/-- Python `dict.get` over the insertion-ordered association list. -/
def lookupA : Assets → Str → Option Str
  | [], _ => none
  | p :: rest, k => if p.1 = k then some p.2 else lookupA rest k

theorem lookupA_mem : ∀ {l : Assets} {k u}, lookupA l k = some u → (k, u) ∈ l := by
  intro l
  induction l with
  | nil => intro k u h; simp [lookupA] at h
  | cons p rest ih =>
    intro k u h
    simp only [lookupA] at h
    split_ifs at h with hk
    · cases h
      subst hk
      simp
    · exact List.mem_cons_of_mem _ (ih h)

theorem lookupA_isSome_of_key_mem :
    ∀ {l : Assets} {k}, k ∈ l.map Prod.fst → ∃ u, lookupA l k = some u := by
  intro l
  induction l with
  | nil => intro k h; simp at h
  | cons p rest ih =>
    intro k h
    simp only [lookupA]
    by_cases hk : p.1 = k
    · simp [hk]
    · simp only [List.map_cons, List.mem_cons] at h
      rcases h with h | h
      · exact absurd h.symm hk
      · simpa [hk] using ih h

/-- `_latest_patch` (src/isopy/cli.py lines 94–97): keep the keys that
`startswith(branch + ".")`, then Python `max` keyed by the numeric tuple;
`None` when no key matches. -/
def latest_patch (branch : Str) (assets : Assets) : Option Str :=
  maxByKey tripleOf
    ((assets.map Prod.fst).filter (fun v => isPre (branch ++ ['.']) v))

/-- The three fatal `sys.exit` outcomes of `_ensure`'s resolution logic. -/
inductive ResolveErr
  | invalidSpec
  | noBuilds (branch : Str)
  | notPublished (ver : Str)
deriving DecidableEq

/-- The index-resolution logic of `_ensure` (src/isopy/cli.py lines
131–140): validate the spec against the two grammars, resolve a branch via
`_latest_patch`, and look the exact version up with `.get`; each `sys.exit`
becomes an error value. -/
def resolveSpec (spec : Str) (assets : Assets) : Except ResolveErr (Str × Str) :=
  if rx_branch spec then
    match latest_patch spec assets with
    | none => Except.error (ResolveErr.noBuilds spec)
    | some v =>
      match lookupA assets v with
      | none => Except.error (ResolveErr.notPublished v)
      | some url => Except.ok (v, url)
  else if rx_fullver spec then
    match lookupA assets spec with
    | none => Except.error (ResolveErr.notPublished spec)
    | some url => Except.ok (spec, url)
  else Except.error ResolveErr.invalidSpec

theorem tripleOf_verStr (a b c : Nat) : tripleOf (verStr a b c) = [a, b, c] := by
  rw [tripleOf, splitSep_verStr]
  simp [digitsVal_natDigits]

theorem tupLt_same_two (x y c c' : Nat) :
    tupLt [x, y, c] [x, y, c'] = decide (c < c') := by
  simp [tupLt, lexLt]

theorem latest_patch_spec (X Y : Nat) (assets : Assets)
    (hkeys : ∀ p ∈ assets, ∃ a b c, p.1 = verStr a b c) :
    ((∃ p ∈ assets, ∃ c, p.1 = verStr X Y c) →
      ∃ c, latest_patch (branchStr X Y) assets = some (verStr X Y c) ∧
        (∀ p ∈ assets, ∀ c', p.1 = verStr X Y c' → c' ≤ c)) ∧
    ((∀ p ∈ assets, ∀ c, p.1 ≠ verStr X Y c) →
      latest_patch (branchStr X Y) assets = none) := by
  constructor
  · rintro ⟨p, hp, c0, hpc⟩
    have hpin : p.1 ∈ (assets.map Prod.fst).filter
        (fun v => isPre (branchStr X Y ++ ['.']) v) := by
      apply List.mem_filter.mpr
      refine ⟨List.mem_map.mpr ⟨p, hp, rfl⟩, ?_⟩
      rw [hpc]
      exact (branch_isPre_verStr X Y X Y c0).mpr ⟨rfl, rfl⟩
    have hne : (assets.map Prod.fst).filter
        (fun v => isPre (branchStr X Y ++ ['.']) v) ≠ [] :=
      List.ne_nil_of_mem hpin
    obtain ⟨r, hr⟩ := @maxByKey_ne_none tripleOf _ hne
    have hrmem := maxByKey_mem hr
    have hrkeys : r ∈ assets.map Prod.fst := List.mem_of_mem_filter hrmem
    obtain ⟨q, hq, hqr⟩ := List.mem_map.mp hrkeys
    obtain ⟨a, b, c, habc⟩ := hkeys q hq
    have hrpre : isPre (branchStr X Y ++ ['.']) r = true :=
      (List.mem_filter.mp hrmem).2
    rw [← hqr, habc] at hrpre
    obtain ⟨hXa, hYb⟩ := (branch_isPre_verStr X Y a b c).mp hrpre
    subst hXa hYb
    have hrval : r = verStr X Y c := by rw [← hqr, habc]
    refine ⟨c, ?_, ?_⟩
    · rw [latest_patch, hr, hrval]
    · intro p' hp' c' hp'c
      have hp'in : p'.1 ∈ (assets.map Prod.fst).filter
          (fun v => isPre (branchStr X Y ++ ['.']) v) := by
        apply List.mem_filter.mpr
        refine ⟨List.mem_map.mpr ⟨p', hp', rfl⟩, ?_⟩
        rw [hp'c]
        exact (branch_isPre_verStr X Y X Y c').mpr ⟨rfl, rfl⟩
      have hnl := maxByKey_not_lt hr p'.1 hp'in
      rw [hrval, hp'c, tripleOf_verStr, tripleOf_verStr, tupLt_same_two] at hnl
      simpa using hnl
  · intro hno
    have hfil : (assets.map Prod.fst).filter
        (fun v => isPre (branchStr X Y ++ ['.']) v) = [] := by
      apply List.filter_eq_nil_iff.mpr
      intro v hv
      obtain ⟨q, hq, hqv⟩ := List.mem_map.mp hv
      obtain ⟨a, b, c, habc⟩ := hkeys q hq
      intro hpre
      rw [← hqv, habc] at hpre
      obtain ⟨hXa, hYb⟩ := (branch_isPre_verStr X Y a b c).mp hpre
      subst hXa hYb
      exact hno q hq c habc
    rw [latest_patch, hfil]
    rfl

/-- C1: for a canonical index and branch `X.Y` with at least one matching
key, resolution returns the matching key with the greatest numeric
`(major, minor, patch)` triple together with its mapped URL; with no
matching key it fails with the not-found error naming the branch. -/
theorem C1_branch_resolution (X Y : Nat) (assets : Assets)
    (hkeys : ∀ p ∈ assets, ∃ a b c, p.1 = verStr a b c) :
    ((∃ p ∈ assets, ∃ c, p.1 = verStr X Y c) →
      ∃ c url,
        resolveSpec (branchStr X Y) assets = Except.ok (verStr X Y c, url) ∧
        lookupA assets (verStr X Y c) = some url ∧
        (verStr X Y c, url) ∈ assets ∧
        (∀ p ∈ assets, ∀ c', p.1 = verStr X Y c' → c' ≤ c)) ∧
    ((∀ p ∈ assets, ∀ c, p.1 ≠ verStr X Y c) →
      resolveSpec (branchStr X Y) assets =
        Except.error (ResolveErr.noBuilds (branchStr X Y))) := by
  obtain ⟨hfound, hnone⟩ := latest_patch_spec X Y assets hkeys
  constructor
  · intro hex
    obtain ⟨c, hlp, hmax⟩ := hfound hex
    have hkeymem : verStr X Y c ∈ assets.map Prod.fst := by
      have := @maxByKey_mem tripleOf
        ((assets.map Prod.fst).filter
          (fun v => isPre (branchStr X Y ++ ['.']) v)) (verStr X Y c)
        (by rw [← latest_patch]; exact hlp)
      exact List.mem_of_mem_filter this
    obtain ⟨url, hurl⟩ := lookupA_isSome_of_key_mem hkeymem
    refine ⟨c, url, ?_, hurl, lookupA_mem hurl, hmax⟩
    rw [resolveSpec, if_pos (rx_branch_branchStr X Y), hlp]
    simp [hurl]
  · intro hno
    rw [resolveSpec, if_pos (rx_branch_branchStr X Y), hnone hno]

instance exceptDecEq {ε α : Type} [DecidableEq ε] [DecidableEq α] :
    DecidableEq (Except ε α) := fun x y =>
  match x, y with
  | Except.ok a, Except.ok b =>
    if h : a = b then isTrue (by rw [h])
    else isFalse (by intro hc; cases hc; exact h rfl)
  | Except.error e, Except.error f =>
    if h : e = f then isTrue (by rw [h])
    else isFalse (by intro hc; cases hc; exact h rfl)
  | Except.ok _, Except.error _ => isFalse (by intro hc; cases hc)
  | Except.error _, Except.ok _ => isFalse (by intro hc; cases hc)

/-- Concrete index used to witness C1: patch keys 3.9.9, 3.9.10 and a
different branch 3.10.0. -/
def c1Index : Assets :=
  [(verStr 3 9 9, ['a']), (verStr 3 9 10, ['b']), (verStr 3 10 0, ['c'])]

/-- Witness for C1: on `{3.9.9, 3.9.10, 3.10.0}` under branch `3.9` the
resolved key is `3.9.10` (numeric comparison, not string comparison). -/
theorem C1_branch_resolution_witness :
    (∃ c url,
      resolveSpec (branchStr 3 9) c1Index = Except.ok (verStr 3 9 c, url) ∧
      lookupA c1Index (verStr 3 9 c) = some url ∧
      (verStr 3 9 c, url) ∈ c1Index ∧
      (∀ p ∈ c1Index, ∀ c', p.1 = verStr 3 9 c' → c' ≤ c)) ∧
    resolveSpec (branchStr 3 9) c1Index = Except.ok (verStr 3 9 10, ['b']) :=
  ⟨(C1_branch_resolution 3 9 c1Index (by
      intro p hp
      simp only [c1Index, List.mem_cons, List.not_mem_nil, or_false] at hp
      rcases hp with h | h | h <;> subst h
      · exact ⟨3, 9, 9, rfl⟩
      · exact ⟨3, 9, 10, rfl⟩
      · exact ⟨3, 10, 0, rfl⟩)).1
    ⟨(verStr 3 9 9, ['a']), by simp [c1Index], 9, rfl⟩,
   by decide⟩

/-- A tar member: its name inside the archive plus whether extracting it
succeeds (disk-level failure is an environment input to the model). -/
structure Member where
  name : Str
  ok : Bool
deriving DecidableEq

/-- Events observable at the process boundary. -/
inductive Ev
  | fetchIndex
  | download (url : Str)
deriving DecidableEq

/-- A filesystem path as a list of components. -/
abbrev FsPath := List Str

/-- Process and environment state threaded through the embedded functions:
`cache` is the module global `ASSETS_CACHE` (cli.py line 99), `net` is what
`_collect_assets()` would return if called, `fs` the set of existing files,
and `archives` maps archive URLs to their content (`none` means
`tarfile.open` raises on the downloaded file; an absent URL means `urlopen`
itself raises). -/
structure St where
  cache : Option Assets
  net : Assets
  fs : List FsPath
  archives : List (Str × Option (List Member))
deriving DecidableEq

/-- `_assets` (cli.py lines 101–105): populate the process-wide cache with
`_collect_assets()` on first use, afterwards serve the cached mapping. -/
def assetsFn (s : St) : Assets × St × List Ev :=
  match s.cache with
  | some a => (a, s, [])
  | none => (s.net, { s with cache := some s.net }, [Ev.fetchIndex])

def insertP (p : FsPath) (fs : List FsPath) : List FsPath :=
  if p ∈ fs then fs else fs ++ [p]

def removeP (p : FsPath) (fs : List FsPath) : List FsPath :=
  fs.filter (fun q => q ≠ p)

theorem mem_insertP {p q : FsPath} {fs : List FsPath} :
    q ∈ insertP p fs ↔ q ∈ fs ∨ q = p := by
  unfold insertP
  split_ifs with h
  · constructor
    · exact fun hq => Or.inl hq
    · rintro (hq | hq)
      · exact hq
      · rw [hq]; exact h
  · simp [or_comm]

theorem mem_removeP {p q : FsPath} {fs : List FsPath} :
    q ∈ removeP p fs ↔ q ∈ fs ∧ q ≠ p := by
  unfold removeP
  simp

/-- The temporary file created by `tempfile.NamedTemporaryFile(delete=False)`
(cli.py line 111), outside the install tree. -/
def tmpPath : FsPath := [("tmp").data, ("isopy-download").data]

/-- The strings used for fixed path components. -/
def binC : Str := ("bin").data

def pythonC : Str := ("python").data

/-- `"python/"`, the member-name filter of `_download` (cli.py line 118). -/
def pythonSlash : Str := ("python/").data

/-- Where member `m` lands: `dest / m.path` after
`m.path = "/".join(m.name.split("/")[1:])` (cli.py line 120). -/
def memberDest (dest : FsPath) (m : Member) : FsPath :=
  dest ++ (splitSep '/' m.name).drop 1

/-- `tar.extractall(dest, members)` (cli.py line 121): extract members in
order; a failing member raises, leaving earlier members extracted. -/
def extractAll (dest : FsPath) : List Member → List FsPath → Bool × List FsPath
  | [], fs => (true, fs)
  | m :: ms, fs =>
    if m.ok then extractAll dest ms (insertP (memberDest dest m) fs)
    else (false, fs)

inductive DlErr
  | network
  | corrupt
  | extract
deriving DecidableEq

def lookupArch : List (Str × Option (List Member)) → Str →
    Option (Option (List Member))
  | [], _ => none
  | p :: rest, k => if p.1 = k then some p.2 else lookupArch rest k

/-- `_download` (cli.py lines 108–122): `urlopen(url)` into a fresh
temporary file, filter members whose name `startswith("python/")`, strip
one leading path component from each, `extractall`, then `os.unlink` the
temporary file.  The unlink is the final statement with no `try/finally`,
so every error path returns with the temporary file still on disk (when it
was created). -/
def download (url : Str) (dest : FsPath) (s : St) :
    Except DlErr Unit × St × List Ev :=
  match lookupArch s.archives url with
  | none => (Except.error DlErr.network, s, [Ev.download url])
  | some none =>
    (Except.error DlErr.corrupt, { s with fs := insertP tmpPath s.fs },
      [Ev.download url])
  | some (some allMembers) =>
    match extractAll dest (allMembers.filter (fun m => isPre pythonSlash m.name))
        (insertP tmpPath s.fs) with
    | (false, fs2) =>
      (Except.error DlErr.extract, { s with fs := fs2 }, [Ev.download url])
    | (true, fs2) =>
      (Except.ok (), { s with fs := removeP tmpPath fs2 }, [Ev.download url])

inductive EnsureErr
  | resolve (e : ResolveErr)
  | dl (e : DlErr)
deriving DecidableEq

/-- `~/.isopy`, the install root (cli.py line 31). -/
def ISOPY_HOME : FsPath := [("home").data, ("user").data, (".isopy").data]

/-- The second half of `_ensure` (cli.py lines 136–142): compute
`dest = ISOPY_HOME / ver` and `py = dest / "bin" / "python"`; when `py`
does not exist, fetch the URL from `_assets()` and `_download`; return
`py`. -/
def ensureInstall (ver : Str) (s : St) (evs : List Ev) :
    Except EnsureErr FsPath × St × List Ev :=
  let dest := ISOPY_HOME ++ [ver]
  let py := dest ++ [binC, pythonC]
  if py ∈ s.fs then (Except.ok py, s, evs)
  else
    let r := assetsFn s
    match lookupA r.1 ver with
    | none =>
      (Except.error (EnsureErr.resolve (ResolveErr.notPublished ver)), r.2.1,
        evs ++ r.2.2)
    | some url =>
      match download url dest r.2.1 with
      | (Except.error e, s2, e3) =>
        (Except.error (EnsureErr.dl e), s2, evs ++ r.2.2 ++ e3)
      | (Except.ok _, s2, e3) => (Except.ok py, s2, evs ++ r.2.2 ++ e3)

/-- `_ensure` (cli.py lines 125–142): branch specs are resolved through
`_latest_patch(_assets())`, exact specs are used directly, anything else
exits with the invalid-spec message before touching `_assets` or the
filesystem. -/
def ensure (ver : Str) (s : St) : Except EnsureErr FsPath × St × List Ev :=
  if rx_branch ver then
    let r := assetsFn s
    match latest_patch ver r.1 with
    | none =>
      (Except.error (EnsureErr.resolve (ResolveErr.noBuilds ver)), r.2.1, r.2.2)
    | some v => ensureInstall v r.2.1 r.2.2
  else if rx_fullver ver then ensureInstall ver s []
  else (Except.error (EnsureErr.resolve ResolveErr.invalidSpec), s, [])

/-- C4: an input matching neither the branch grammar `X.Y` nor the exact
grammar `X.Y.Z` makes `_ensure` exit with the invalid-spec error, with no
network or filesystem event and the state untouched. -/
theorem C4_invalid_spec_rejected (ver : Str) (s : St)
    (hb : rx_branch ver = false) (hf : rx_fullver ver = false) :
    ensure ver s =
      (Except.error (EnsureErr.resolve ResolveErr.invalidSpec), s, []) := by
  simp [ensure, hb, hf]

/-- Witness for C4 on the spec's four example inputs `" 3.9"`, `"3"`,
`"3.9.1.2"`, `"abc"`, from an empty initial state. -/
theorem C4_invalid_spec_rejected_witness :
    ensure ((" 3.9").data) ⟨none, [], [], []⟩ =
      (Except.error (EnsureErr.resolve ResolveErr.invalidSpec),
        ⟨none, [], [], []⟩, []) ∧
    ensure (("3").data) ⟨none, [], [], []⟩ =
      (Except.error (EnsureErr.resolve ResolveErr.invalidSpec),
        ⟨none, [], [], []⟩, []) ∧
    ensure (("3.9.1.2").data) ⟨none, [], [], []⟩ =
      (Except.error (EnsureErr.resolve ResolveErr.invalidSpec),
        ⟨none, [], [], []⟩, []) ∧
    ensure (("abc").data) ⟨none, [], [], []⟩ =
      (Except.error (EnsureErr.resolve ResolveErr.invalidSpec),
        ⟨none, [], [], []⟩, []) :=
  ⟨C4_invalid_spec_rejected _ _ (by decide) (by decide),
   C4_invalid_spec_rejected _ _ (by decide) (by decide),
   C4_invalid_spec_rejected _ _ (by decide) (by decide),
   C4_invalid_spec_rejected _ _ (by decide) (by decide)⟩

/-- C5: two consecutive `_assets()` calls in one run perform exactly one
index fetch: the first fetches, the second is served from the process-wide
cache with no network event, returning the identical mapping and leaving
the state unchanged. -/
theorem C5_second_load_cached (s0 : St) (h : s0.cache = none) :
    (assetsFn s0).2.2 = [Ev.fetchIndex] ∧
    (assetsFn (assetsFn s0).2.1).2.2 = [] ∧
    (assetsFn (assetsFn s0).2.1).1 = (assetsFn s0).1 ∧
    (assetsFn (assetsFn s0).2.1).2.1 = (assetsFn s0).2.1 := by
  simp [assetsFn, h]

/-- Witness for C5 at a concrete one-entry index. -/
theorem C5_second_load_cached_witness :
    (assetsFn ⟨none, [(verStr 3 12 1, ("u").data)], [], []⟩).2.2 =
      [Ev.fetchIndex] ∧
    (assetsFn (assetsFn ⟨none, [(verStr 3 12 1, ("u").data)], [], []⟩).2.1).2.2 =
      [] ∧
    (assetsFn (assetsFn ⟨none, [(verStr 3 12 1, ("u").data)], [], []⟩).2.1).1 =
      (assetsFn ⟨none, [(verStr 3 12 1, ("u").data)], [], []⟩).1 ∧
    (assetsFn (assetsFn ⟨none, [(verStr 3 12 1, ("u").data)], [], []⟩).2.1).2.1 =
      (assetsFn ⟨none, [(verStr 3 12 1, ("u").data)], [], []⟩).2.1 :=
  C5_second_load_cached _ rfl

theorem extractAll_subset (dest : FsPath) :
    ∀ (ms : List Member) (fs : List FsPath) (q : FsPath), q ∈ fs →
      q ∈ (extractAll dest ms fs).2 := by
  intro ms
  induction ms with
  | nil => intro fs q hq; exact hq
  | cons m ms ih =>
    intro fs q hq
    simp only [extractAll]
    split
    · exact ih _ _ (mem_insertP.mpr (Or.inl hq))
    · exact hq

theorem extractAll_ok (dest : FsPath) :
    ∀ (ms : List Member) (fs : List FsPath), (∀ m ∈ ms, m.ok = true) →
      (extractAll dest ms fs).1 = true := by
  intro ms
  induction ms with
  | nil => intro fs _; rfl
  | cons m ms ih =>
    intro fs hall
    simp only [extractAll]
    rw [if_pos (hall m (by simp))]
    exact ih _ fun m' hm' => hall m' (List.mem_cons_of_mem _ hm')

theorem extractAll_mem_iff (dest : FsPath) :
    ∀ (ms : List Member) (fs : List FsPath),
      (extractAll dest ms fs).1 = true →
      ∀ q, (q ∈ (extractAll dest ms fs).2 ↔
        q ∈ fs ∨ ∃ m ∈ ms, q = memberDest dest m) := by
  intro ms
  induction ms with
  | nil => intro fs _ q; simp [extractAll]
  | cons m ms ih =>
    intro fs hok q
    simp only [extractAll] at hok ⊢
    by_cases hm : m.ok = true
    · rw [if_pos hm] at hok ⊢
      rw [ih _ hok q, mem_insertP]
      constructor
      · rintro ((hq | hq) | ⟨m', hm', hq⟩)
        · exact Or.inl hq
        · exact Or.inr ⟨m, by simp, hq⟩
        · exact Or.inr ⟨m', List.mem_cons_of_mem _ hm', hq⟩
      · rintro (hq | ⟨m', hm', hq⟩)
        · exact Or.inl (Or.inl hq)
        · rcases List.mem_cons.mp hm' with h | h
          · subst h; exact Or.inl (Or.inr hq)
          · exact Or.inr ⟨m', h, hq⟩
    · rw [if_neg hm] at hok
      exact absurd hok (by simp)

/-- C2 as stated is false: with an archive whose single `python/` member
fails to extract, `_download` raises out of `extractall` and the temporary
download file is still on disk afterwards (the `os.unlink` on cli.py line
122 is only reached on the success path). -/
theorem C2_counterexample :
    (download (("u").data) (ISOPY_HOME ++ [verStr 3 11 9])
        ⟨none, [], [], [(("u").data, some [⟨("python/x").data, false⟩])]⟩).1 =
      Except.error DlErr.extract ∧
    tmpPath ∈ (download (("u").data) (ISOPY_HOME ++ [verStr 3 11 9])
        ⟨none, [], [], [(("u").data, some [⟨("python/x").data, false⟩])]⟩).2.1.fs := by
  constructor
  · decide
  · decide

/-- C2 amended: the temporary artifact is removed when download and
extraction succeed, but on any failure after the temporary file was
created (corrupt archive or an extraction error partway through) the
temporary file remains on disk. -/
theorem C2_tmp_cleanup_on_success_only (url : Str) (dest : FsPath) (s : St)
    (res : Except DlErr Unit) (s' : St) (evs : List Ev)
    (hd : download url dest s = (res, s', evs)) :
    (res = Except.ok () → tmpPath ∉ s'.fs) ∧
    (∀ e, res = Except.error e → e ≠ DlErr.network → tmpPath ∈ s'.fs) := by
  unfold download at hd
  split at hd
  · injection hd with h1 h23
    injection h23 with h2 h3
    subst h1 h2 h3
    constructor
    · intro h
      exact absurd h (by simp)
    · intro e he hne
      exfalso
      apply hne
      have : DlErr.network = e := by injection he
      rw [← this]
  · injection hd with h1 h23
    injection h23 with h2 h3
    subst h1 h2 h3
    constructor
    · intro h
      exact absurd h (by simp)
    · intro e _ _
      exact mem_insertP.mpr (Or.inr rfl)
  · rename_i allMembers hlook
    split at hd
    · rename_i fs2 hres
      injection hd with h1 h23
      injection h23 with h2 h3
      subst h1 h2 h3
      constructor
      · intro h
        exact absurd h (by simp)
      · intro e _ _
        have hsub : tmpPath ∈ (extractAll dest
            (allMembers.filter (fun m => isPre pythonSlash m.name))
            (insertP tmpPath s.fs)).2 :=
          extractAll_subset dest _ _ _ (mem_insertP.mpr (Or.inr rfl))
        rw [hres] at hsub
        exact hsub
    · rename_i fs2 hres
      injection hd with h1 h23
      injection h23 with h2 h3
      subst h1 h2 h3
      constructor
      · intro _ hmem
        exact absurd (mem_removeP.mp hmem).2 (by simp)
      · intro e he _
        exact absurd he (by simp)

/-- Environments for the C2 witness: one archive whose single member
extracts, one whose single member fails. -/
def c2SuccSt : St :=
  ⟨none, [], [], [(("u").data, some [⟨("python/bin/python").data, true⟩])]⟩

def c2FailSt : St :=
  ⟨none, [], [], [(("u").data, some [⟨("python/x").data, false⟩])]⟩

def c2Url : Str := ("u").data

def c2Dest : FsPath := ISOPY_HOME ++ [verStr 3 11 9]

/-- Witness for the amended C2: both halves applied at concrete runs — a
successful extraction (temporary file gone) and a failing member
(temporary file still present). -/
theorem C2_tmp_cleanup_witness :
    tmpPath ∉ (download c2Url c2Dest c2SuccSt).2.1.fs ∧
    tmpPath ∈ (download c2Url c2Dest c2FailSt).2.1.fs := by
  constructor
  · exact (C2_tmp_cleanup_on_success_only c2Url c2Dest c2SuccSt
      (download c2Url c2Dest c2SuccSt).1 (download c2Url c2Dest c2SuccSt).2.1
      (download c2Url c2Dest c2SuccSt).2.2 rfl).1 (by decide)
  · exact (C2_tmp_cleanup_on_success_only c2Url c2Dest c2FailSt
      (download c2Url c2Dest c2FailSt).1 (download c2Url c2Dest c2FailSt).2.1
      (download c2Url c2Dest c2FailSt).2.2 rfl).2 DlErr.extract (by decide)
      (by decide)

/-- C3: extraction is restricted to members under the `python/` prefix and
each lands at `dest` with its single leading path component stripped: on a
successful run the resulting filesystem is exactly the previous files
(minus the temporary download file) plus `dest / strip(m)` for precisely
the `python/`-prefixed members. -/
theorem C3_extract_python_only (url : Str) (dest : FsPath) (s : St)
    (ms : List Member)
    (harch : lookupArch s.archives url = some (some ms))
    (hok : ∀ m ∈ ms, isPre pythonSlash m.name = true → m.ok = true) :
    (download url dest s).1 = Except.ok () ∧
    (∀ q, q ∈ (download url dest s).2.1.fs ↔
      q ≠ tmpPath ∧
        (q ∈ s.fs ∨
          ∃ m ∈ ms, isPre pythonSlash m.name = true ∧ q = memberDest dest m)) := by
  have hallok : ∀ m ∈ ms.filter (fun m => isPre pythonSlash m.name),
      m.ok = true := by
    intro m hm
    have hmf := List.mem_filter.mp hm
    exact hok m hmf.1 hmf.2
  have hex := extractAll_ok dest (ms.filter fun m => isPre pythonSlash m.name)
    (insertP tmpPath s.fs) hallok
  obtain ⟨fs2, hres⟩ : ∃ fs2,
      extractAll dest (ms.filter fun m => isPre pythonSlash m.name)
        (insertP tmpPath s.fs) = (true, fs2) := by
    refine ⟨(extractAll dest (ms.filter fun m => isPre pythonSlash m.name)
      (insertP tmpPath s.fs)).2, ?_⟩
    rw [← hex]
  constructor
  · simp [download, harch, hres]
  · intro q
    simp only [download, harch, hres]
    rw [mem_removeP]
    have hmem := extractAll_mem_iff dest
      (ms.filter fun m => isPre pythonSlash m.name) (insertP tmpPath s.fs)
      (by rw [hres]) q
    rw [hres] at hmem
    simp only at hmem
    rw [hmem, mem_insertP]
    constructor
    · rintro ⟨(hq | hq) | ⟨m, hm, hq⟩, hne⟩
      · exact ⟨hne, Or.inl hq⟩
      · exact absurd hq hne
      · have hmf := List.mem_filter.mp hm
        exact ⟨hne, Or.inr ⟨m, hmf.1, hmf.2, hq⟩⟩
    · rintro ⟨hne, hq | ⟨m, hm, hpre, hq⟩⟩
      · exact ⟨Or.inl (Or.inl hq), hne⟩
      · exact ⟨Or.inr ⟨m, List.mem_filter.mpr ⟨hm, hpre⟩, hq⟩, hne⟩

/-- Environment for the C3 witness: an archive holding
`python/bin/python`, `python/lib/libpython.a` and an unrelated
`other/secret`. -/
def c3St : St :=
  ⟨none, [], [],
    [(("u").data, some
      [⟨("python/bin/python").data, true⟩,
       ⟨("python/lib/libpython.a").data, true⟩,
       ⟨("other/secret").data, true⟩])]⟩

/-- Target directory for the C3 witness. -/
def c3Dest : FsPath := ISOPY_HOME ++ [verStr 3 11 9]

/-- Witness for C3 on the spec's example archive: after install,
`target/bin/python` and `target/lib/libpython.a` exist while
`target/other/secret` does not. -/
theorem C3_extract_python_only_witness :
    ((download (("u").data) c3Dest c3St).1 = Except.ok () ∧
      (∀ q, q ∈ (download (("u").data) c3Dest c3St).2.1.fs ↔
        q ≠ tmpPath ∧
          (q ∈ c3St.fs ∨
            ∃ m ∈ [(⟨("python/bin/python").data, true⟩ : Member),
                   ⟨("python/lib/libpython.a").data, true⟩,
                   ⟨("other/secret").data, true⟩],
              isPre pythonSlash m.name = true ∧ q = memberDest c3Dest m))) ∧
    c3Dest ++ [binC, pythonC] ∈ (download (("u").data) c3Dest c3St).2.1.fs ∧
    c3Dest ++ [("lib").data, ("libpython.a").data] ∈
      (download (("u").data) c3Dest c3St).2.1.fs ∧
    c3Dest ++ [("other").data, ("secret").data] ∉
      (download (("u").data) c3Dest c3St).2.1.fs :=
  ⟨C3_extract_python_only (("u").data) c3Dest c3St _ rfl (by decide),
   by decide, by decide, by decide⟩

/-- One observable step of `_gh_get`. -/
inductive GhEv
  | attempt (k : Nat)
  | sleep (seconds : Nat)
deriving DecidableEq

/-- The retry loop of `_gh_get` (cli.py lines 63–73): `for attempt in
range(1, retries + 1)`; a successful `urlopen` returns the payload, the
final failed attempt exits fatally with that attempt's error, and each
intermediate failure sleeps `2 * attempt` seconds.  `resp` lists the
outcome the network gives each attempt; `rem` counts remaining attempts
and `k` is the current attempt number. -/
def ghGetLoop (resp : List (Except Str Str)) :
    Nat → Nat → Except Str Str × List GhEv
  | 0, _ => (Except.error [], [])
  | rem + 1, k =>
    match resp.getD (k - 1) (Except.error []) with
    | Except.ok d => (Except.ok d, [GhEv.attempt k])
    | Except.error e =>
      if rem = 0 then (Except.error e, [GhEv.attempt k])
      else
        let r := ghGetLoop resp rem (k + 1)
        (r.1, GhEv.attempt k :: GhEv.sleep (2 * k) :: r.2)

/-- `_gh_get` at its default and only used retry count, `retries = 3`. -/
def gh_get (resp : List (Except Str Str)) : Except Str Str × List GhEv :=
  ghGetLoop resp 3 1

/-- C6: the index fetch retries transient failures with doubling sleeps of
2 then 4 seconds, bounded at 3 attempts, after which it fails fatally with
the last attempt's error; a failure then a success shows the retry; and the
archive download performs a single network attempt whose failure is
terminal, with no retry. -/
theorem C6_retry_bounded_backoff :
    (∀ e1 e2 e3 : Str,
      gh_get [Except.error e1, Except.error e2, Except.error e3] =
        (Except.error e3,
          [GhEv.attempt 1, GhEv.sleep 2, GhEv.attempt 2, GhEv.sleep 4,
           GhEv.attempt 3])) ∧
    (∀ e1 d : Str,
      gh_get [Except.error e1, Except.ok d] =
        (Except.ok d, [GhEv.attempt 1, GhEv.sleep 2, GhEv.attempt 2])) ∧
    (∀ (url : Str) (dest : FsPath) (s : St),
      lookupArch s.archives url = none →
      download url dest s = (Except.error DlErr.network, s, [Ev.download url])) := by
  refine ⟨fun e1 e2 e3 => rfl, fun e1 d => rfl, fun url dest s h => ?_⟩
  unfold download
  rw [h]

/-- Witness for C6: concrete all-fail and fail-then-succeed runs of the
index fetch, and a concrete archive download with an unreachable URL. -/
theorem C6_retry_bounded_backoff_witness :
    gh_get [Except.error (("x").data), Except.error (("y").data),
        Except.error (("z").data)] =
      (Except.error (("z").data),
        [GhEv.attempt 1, GhEv.sleep 2, GhEv.attempt 2, GhEv.sleep 4,
         GhEv.attempt 3]) ∧
    gh_get [Except.error (("x").data), Except.ok (("ok").data)] =
      (Except.ok (("ok").data),
        [GhEv.attempt 1, GhEv.sleep 2, GhEv.attempt 2]) ∧
    download (("u").data) (ISOPY_HOME ++ [verStr 3 12 0]) ⟨none, [], [], []⟩ =
      (Except.error DlErr.network, ⟨none, [], [], []⟩,
        [Ev.download (("u").data)]) :=
  ⟨C6_retry_bounded_backoff.1 (("x").data) (("y").data) (("z").data),
   C6_retry_bounded_backoff.2.1 (("x").data) (("ok").data),
   C6_retry_bounded_backoff.2.2 (("u").data) (ISOPY_HOME ++ [verStr 3 12 0])
     ⟨none, [], [], []⟩ rfl⟩

/-- The index of the spec's end-to-end scenario. -/
def c7Index : Assets :=
  [(verStr 3 11 4, ("url-a").data), (verStr 3 11 9, ("url-b").data),
   (verStr 3 12 0, ("url-c").data)]

/-- Initial state of the end-to-end scenario: empty filesystem, the
scenario index served by the network, `url-b` resolving to an archive with
`python/bin/python`. -/
def c7St : St :=
  ⟨none, c7Index, [],
    [(("url-b").data, some [⟨("python/bin/python").data, true⟩])]⟩

/-- The executable path the scenario must produce. -/
def c7Py : FsPath := (ISOPY_HOME ++ [verStr 3 11 9]) ++ [binC, pythonC]

/-- C7: with index {3.11.4: url-a, 3.11.9: url-b, 3.12.0: url-c},
`install("3.11")` resolves to 3.11.9 with url-b, downloads exactly that
archive and installs under `<root>/3.11.9`; the second `install("3.11")`
sees the executable already present, performs no download (and no fetch),
returns the same path, and leaves the state unchanged. -/
theorem C7_install_idempotent :
    (ensure (branchStr 3 11) c7St).1 = Except.ok c7Py ∧
    (ensure (branchStr 3 11) c7St).2.2 =
      [Ev.fetchIndex, Ev.download (("url-b").data)] ∧
    c7Py ∈ (ensure (branchStr 3 11) c7St).2.1.fs ∧
    (ensure (branchStr 3 11) (ensure (branchStr 3 11) c7St).2.1).1 =
      Except.ok c7Py ∧
    (ensure (branchStr 3 11) (ensure (branchStr 3 11) c7St).2.1).2.2 = [] ∧
    (ensure (branchStr 3 11) (ensure (branchStr 3 11) c7St).2.1).2.1 =
      (ensure (branchStr 3 11) c7St).2.1 := by
  refine ⟨by decide, by decide, by decide, by decide, by decide, by decide⟩

/-- Number of index-fetch events in a trace. -/
def countFetch (evs : List Ev) : Nat :=
  (evs.filter (fun e => e = Ev.fetchIndex)).length

theorem countFetch_append (a b : List Ev) :
    countFetch (a ++ b) = countFetch a + countFetch b := by
  simp [countFetch, List.filter_append]

theorem countFetch_download (url : Str) : countFetch [Ev.download url] = 0 := by
  simp [countFetch]

theorem countFetch_fetch : countFetch [Ev.fetchIndex] = 1 := rfl

theorem countFetch_nil : countFetch [] = 0 := rfl

theorem download_st (url : Str) (dest : FsPath) (s : St) :
    (download url dest s).2.1.cache = s.cache ∧
    (download url dest s).2.1.net = s.net ∧
    (download url dest s).2.2 = [Ev.download url] := by
  unfold download
  split
  · exact ⟨rfl, rfl, rfl⟩
  · exact ⟨rfl, rfl, rfl⟩
  · split
    · exact ⟨rfl, rfl, rfl⟩
    · exact ⟨rfl, rfl, rfl⟩

theorem assetsFn_cached {s : St} {a : Assets} (h : s.cache = some a) :
    assetsFn s = (a, s, []) := by
  unfold assetsFn
  rw [h]

theorem assetsFn_fresh {s : St} (h : s.cache = none) :
    assetsFn s = (s.net, { s with cache := some s.net }, [Ev.fetchIndex]) := by
  unfold assetsFn
  rw [h]

theorem ensureInstall_st (ver : Str) (s : St) (evs : List Ev) :
    (ensureInstall ver s evs).2.1.net = s.net ∧
    ((ensureInstall ver s evs).2.1.cache = s.cache ∨
      (s.cache = none ∧ (ensureInstall ver s evs).2.1.cache = some s.net)) ∧
    (s.cache = none →
      countFetch (ensureInstall ver s evs).2.2 ≤ countFetch evs + 1) ∧
    (∀ a, s.cache = some a →
      (ensureInstall ver s evs).2.1.cache = some a ∧
      countFetch (ensureInstall ver s evs).2.2 = countFetch evs) ∧
    (s.cache = none → (ensureInstall ver s evs).2.1.cache = none →
      countFetch (ensureInstall ver s evs).2.2 = countFetch evs) := by
  obtain ⟨cache0, net0, fs0, arch0⟩ := s
  unfold ensureInstall
  dsimp only
  split
  · refine ⟨rfl, Or.inl rfl, ?_, ?_, ?_⟩
    · intro _
      dsimp only
      omega
    · intro a ha
      exact ⟨ha, rfl⟩
    · intro _ _
      rfl
  · cases cache0 with
    | some a =>
      rw [assetsFn_cached (show (St.mk (some a) net0 fs0 arch0).cache = some a from rfl)]
      dsimp only
      split
      · refine ⟨rfl, Or.inl rfl, ?_, ?_, ?_⟩
        · intro h
          simp at h
        · intro a' ha'
          have haa : a = a' := by injection ha'
          subst haa
          exact ⟨rfl, by simp [countFetch_append, countFetch_nil]⟩
        · intro h
          simp at h
      · rename_i url hurl
        have hdl := download_st url (ISOPY_HOME ++ [ver]) ⟨some a, net0, fs0, arch0⟩
        cases hres : download url (ISOPY_HOME ++ [ver]) ⟨some a, net0, fs0, arch0⟩ with
        | mk res rest =>
          cases rest with
          | mk s2 e3 =>
            rw [hres] at hdl
            simp only at hdl
            obtain ⟨hc2, hn2, he3⟩ := hdl
            cases res with
            | error e =>
              dsimp only
              refine ⟨hn2, Or.inl (by rw [hc2]), ?_, ?_, ?_⟩
              · intro h
                simp at h
              · intro a' ha'
                have haa : a = a' := by injection ha'
                subst haa
                refine ⟨by rw [hc2], ?_⟩
                rw [he3]
                simp [countFetch_append, countFetch_nil, countFetch_download]
              · intro h
                simp at h
            | ok u =>
              dsimp only
              refine ⟨hn2, Or.inl (by rw [hc2]), ?_, ?_, ?_⟩
              · intro h
                simp at h
              · intro a' ha'
                have haa : a = a' := by injection ha'
                subst haa
                refine ⟨by rw [hc2], ?_⟩
                rw [he3]
                simp [countFetch_append, countFetch_nil, countFetch_download]
              · intro h
                simp at h
    | none =>
      rw [assetsFn_fresh (show (St.mk none net0 fs0 arch0).cache = none from rfl)]
      dsimp only
      split
      · refine ⟨rfl, Or.inr ⟨rfl, rfl⟩, ?_, ?_, ?_⟩
        · intro _
          rw [countFetch_append, countFetch_fetch]
        · intro a' ha'
          simp at ha'
        · intro _ h
          simp at h
      · rename_i url hurl
        have hdl := download_st url (ISOPY_HOME ++ [ver]) ⟨some net0, net0, fs0, arch0⟩
        cases hres : download url (ISOPY_HOME ++ [ver]) ⟨some net0, net0, fs0, arch0⟩ with
        | mk res rest =>
          cases rest with
          | mk s2 e3 =>
            rw [hres] at hdl
            simp only at hdl
            obtain ⟨hc2, hn2, he3⟩ := hdl
            cases res with
            | error e =>
              dsimp only
              refine ⟨hn2, Or.inr ⟨rfl, by rw [hc2]⟩, ?_, ?_, ?_⟩
              · intro _
                rw [he3, countFetch_append, countFetch_append, countFetch_fetch,
                  countFetch_download]
              · intro a' ha'
                simp at ha'
              · intro _ h
                rw [hc2] at h
                simp at h
            | ok u =>
              dsimp only
              refine ⟨hn2, Or.inr ⟨rfl, by rw [hc2]⟩, ?_, ?_, ?_⟩
              · intro _
                rw [he3, countFetch_append, countFetch_append, countFetch_fetch,
                  countFetch_download]
              · intro a' ha'
                simp at ha'
              · intro _ h
                rw [hc2] at h
                simp at h

theorem ensure_st (ver : Str) (s : St) :
    (ensure ver s).2.1.net = s.net ∧
    ((ensure ver s).2.1.cache = s.cache ∨
      (s.cache = none ∧ (ensure ver s).2.1.cache = some s.net)) ∧
    (s.cache = none → countFetch (ensure ver s).2.2 ≤ 1) ∧
    (∀ a, s.cache = some a →
      (ensure ver s).2.1.cache = some a ∧ countFetch (ensure ver s).2.2 = 0) ∧
    (s.cache = none → (ensure ver s).2.1.cache = none →
      countFetch (ensure ver s).2.2 = 0) := by
  obtain ⟨cache0, net0, fs0, arch0⟩ := s
  unfold ensure
  dsimp only
  split
  · cases cache0 with
    | some a =>
      rw [assetsFn_cached (show (St.mk (some a) net0 fs0 arch0).cache = some a from rfl)]
      dsimp only
      split
      · refine ⟨rfl, Or.inl rfl, ?_, ?_, ?_⟩
        · intro h
          simp at h
        · intro a' ha'
          have haa : a = a' := by injection ha'
          subst haa
          exact ⟨rfl, rfl⟩
        · intro h
          simp at h
      · rename_i v hv
        obtain ⟨h1, h2, h3, h4, h5⟩ :=
          ensureInstall_st v ⟨some a, net0, fs0, arch0⟩ []
        refine ⟨h1, h2, ?_, ?_, ?_⟩
        · intro h
          simp at h
        · intro a' ha'
          have haa : a = a' := by injection ha'
          subst haa
          have h4' := h4 a rfl
          exact ⟨h4'.1, by rw [h4'.2]; rfl⟩
        · intro h
          simp at h
    | none =>
      rw [assetsFn_fresh (show (St.mk none net0 fs0 arch0).cache = none from rfl)]
      dsimp only
      split
      · refine ⟨rfl, Or.inr ⟨rfl, rfl⟩, ?_, ?_, ?_⟩
        · intro _
          rw [countFetch_fetch]
        · intro a' ha'
          simp at ha'
        · intro _ h
          simp at h
      · rename_i v hv
        obtain ⟨h1, h2, h3, h4, h5⟩ :=
          ensureInstall_st v ⟨some net0, net0, fs0, arch0⟩ [Ev.fetchIndex]
        have h4' := h4 net0 rfl
        refine ⟨h1, Or.inr ⟨rfl, h4'.1⟩, ?_, ?_, ?_⟩
        · intro _
          rw [h4'.2, countFetch_fetch]
        · intro a' ha'
          simp at ha'
        · intro _ h
          rw [h4'.1] at h
          simp at h
  · split
    · obtain ⟨h1, h2, h3, h4, h5⟩ :=
        ensureInstall_st ver ⟨cache0, net0, fs0, arch0⟩ []
      refine ⟨h1, h2, ?_, ?_, ?_⟩
      · intro h
        simpa [countFetch_nil] using h3 h
      · intro a ha
        have h4' := h4 a ha
        exact ⟨h4'.1, by rw [h4'.2]; rfl⟩
      · intro h hcc
        rw [h5 h hcc]
        rfl
    · refine ⟨rfl, Or.inl rfl, ?_, ?_, ?_⟩
      · intro _
        rw [countFetch_nil]
        exact Nat.zero_le 1
      · intro a ha
        exact ⟨ha, rfl⟩
      · intro _ _
        rfl

/-- C10: in one run, starting from the uncached state, two `_ensure` calls
perform at most one index fetch between them; the process cache only ever
holds the single collected mapping `s0.net`; both calls leave the remote
mapping unchanged; and once the first call has populated the cache, the
second call fetches nothing and can only observe that same mapping. -/
theorem C10_index_fetched_once (v1 v2 : Str) (s0 : St) (h : s0.cache = none) :
    countFetch (ensure v1 s0).2.2 +
      countFetch (ensure v2 (ensure v1 s0).2.1).2.2 ≤ 1 ∧
    ((ensure v1 s0).2.1.cache = none ∨
      (ensure v1 s0).2.1.cache = some s0.net) ∧
    ((ensure v2 (ensure v1 s0).2.1).2.1.cache = none ∨
      (ensure v2 (ensure v1 s0).2.1).2.1.cache = some s0.net) ∧
    (ensure v1 s0).2.1.net = s0.net ∧
    (ensure v2 (ensure v1 s0).2.1).2.1.net = s0.net ∧
    (∀ a, (ensure v1 s0).2.1.cache = some a →
      a = s0.net ∧ countFetch (ensure v2 (ensure v1 s0).2.1).2.2 = 0) := by
  obtain ⟨hn1, hc1, hf1, hs1, hz1⟩ := ensure_st v1 s0
  obtain ⟨hn2, hc2, hf2, hs2, hz2⟩ := ensure_st v2 (ensure v1 s0).2.1
  have hcache1 : (ensure v1 s0).2.1.cache = none ∨
      (ensure v1 s0).2.1.cache = some s0.net := by
    rcases hc1 with h1 | ⟨_, h1⟩
    · rw [h1, h]
      exact Or.inl rfl
    · exact Or.inr h1
  rcases hcache1 with hcase | hcase
  · have hcnt1 : countFetch (ensure v1 s0).2.2 = 0 := hz1 h hcase
    have hcnt2 : countFetch (ensure v2 (ensure v1 s0).2.1).2.2 ≤ 1 := hf2 hcase
    refine ⟨by omega, Or.inl hcase, ?_, hn1, by rw [hn2, hn1], ?_⟩
    · rcases hc2 with h2 | ⟨_, h2⟩
      · rw [h2, hcase]
        exact Or.inl rfl
      · rw [h2, hn1]
        exact Or.inr rfl
    · intro a ha
      rw [hcase] at ha
      simp at ha
  · have hs2' := hs2 s0.net hcase
    have hcnt1 : countFetch (ensure v1 s0).2.2 ≤ 1 := hf1 h
    have hcnt2 := hs2'.2
    refine ⟨by omega, Or.inr hcase, Or.inr hs2'.1, hn1, by rw [hn2, hn1], ?_⟩
    intro b hb
    rw [hcase] at hb
    have hsb : s0.net = b := by injection hb
    subst hsb
    exact ⟨rfl, hs2'.2⟩

/-- Initial state for the C10 witness: a one-entry remote index, nothing
cached or installed. -/
def c10St : St := ⟨none, [(verStr 3 9 1, ("u").data)], [], []⟩

/-- Witness for C10: two branch resolutions of `3.9` from the fresh state
fetch the index at most once and agree on the observed mapping. -/
theorem C10_index_fetched_once_witness :
    countFetch (ensure (branchStr 3 9) c10St).2.2 +
      countFetch (ensure (branchStr 3 9)
        (ensure (branchStr 3 9) c10St).2.1).2.2 ≤ 1 ∧
    ((ensure (branchStr 3 9) c10St).2.1.cache = none ∨
      (ensure (branchStr 3 9) c10St).2.1.cache = some c10St.net) ∧
    ((ensure (branchStr 3 9) (ensure (branchStr 3 9) c10St).2.1).2.1.cache =
        none ∨
      (ensure (branchStr 3 9) (ensure (branchStr 3 9) c10St).2.1).2.1.cache =
        some c10St.net) ∧
    (ensure (branchStr 3 9) c10St).2.1.net = c10St.net ∧
    (ensure (branchStr 3 9)
      (ensure (branchStr 3 9) c10St).2.1).2.1.net = c10St.net ∧
    (∀ a, (ensure (branchStr 3 9) c10St).2.1.cache = some a →
      a = c10St.net ∧
      countFetch (ensure (branchStr 3 9)
        (ensure (branchStr 3 9) c10St).2.1).2.2 = 0) :=
  C10_index_fetched_once (branchStr 3 9) (branchStr 3 9) c10St rfl

/-- Drop a literal prefix or fail (the anchored literal part of a regex). -/
def dropPre : Str → Str → Option Str
  | [], s => some s
  | _ :: _, [] => none
  | p :: ps, c :: cs => if p = c then dropPre ps cs else none

/-- Greedy `\d+` followed by one literal character: the digit run cannot
backtrack because a shorter run would end at a digit, not at `ch`. -/
def takeDigitsThen (ch : Char) (s : Str) : Option (Str × Str) :=
  match s.takeWhile isDigitChar, s.dropWhile isDigitChar with
  | [], _ => none
  | _ :: _, c :: rest =>
    if c = ch then some (s.takeWhile isDigitChar, rest) else none
  | _ :: _, [] => none

/-- `.*sub.*`: `sub` occurs contiguously in `s`. -/
def containsSub (sub s : Str) : Bool :=
  (List.range (s.length + 1)).any (fun i => isPre sub (s.drop i))

/-- `.*a.*b.*`: `a` occurs, and `b` occurs after its end. -/
def containsOrdered (a b s : Str) : Bool :=
  (List.range (s.length + 1)).any (fun i =>
    isPre a (s.drop i) && containsSub b (s.drop (i + a.length)))

/-- `s` ends with `suf`. -/
def endsWith (suf s : Str) : Bool := isPre suf.reverse s.reverse

/-- `ARCH = "x86_64-unknown-linux-gnu"` (cli.py line 32). -/
def archStr : Str := ("x86_64-unknown-linux-gnu").data

def installOnly : Str := ("install_only").data

/-- `_RX_ASSET.match(name)` (cli.py lines 36–37): anchored literal
`cpython-`, the captured `\d+\.\d+\.\d+`, a literal `+`, then
`.*ARCH.*install_only.*` and the `\.(tar\.zst|tar\.gz)$` suffix; returns
the captured group. -/
def matchAsset (name : Str) : Option Str :=
  match dropPre (("cpython-").data) name with
  | none => none
  | some r1 =>
    match takeDigitsThen '.' r1 with
    | none => none
    | some (d1, r2) =>
      match takeDigitsThen '.' r2 with
      | none => none
      | some (d2, r3) =>
        match takeDigitsThen '+' r3 with
        | none => none
        | some (d3, r4) =>
          if (endsWith ((".tar.gz").data) r4 || endsWith ((".tar.zst").data) r4)
              && containsOrdered archStr installOnly r4 then
            some (d1 ++ '.' :: (d2 ++ '.' :: d3))
          else none

/-- One release: its assets as (name, browser_download_url) pairs. -/
abbrev Release := List (Str × Str)

/-- `if m and m.group(1) not in results: results[g] = url` (cli.py lines
88–90): first match wins, insertion order preserved. -/
def insertIfAbsent (k v : Str) (res : Assets) : Assets :=
  if k ∈ res.map Prod.fst then res else res ++ [(k, v)]

/-- The inner asset loop of `_collect_assets` (cli.py lines 87–90). -/
def collectRelease : Release → Assets → Assets
  | [], res => res
  | asset :: rest, res =>
    match matchAsset asset.1 with
    | none => collectRelease rest res
    | some ver => collectRelease rest (insertIfAbsent ver asset.2 res)

/-- The release loop over one page (cli.py line 86). -/
def collectPage : List Release → Assets → Assets
  | [], res => res
  | rel :: rest, res => collectPage rest (collectRelease rel res)

/-- The pagination loop of `_collect_assets` (cli.py lines 80–92): pages
are consumed in order until the first empty one; `pages` is what the
network returns for page 1, 2, …. -/
def collectLoop : List (List Release) → Assets → Assets
  | [], res => res
  | page :: rest, res =>
    if page.isEmpty then res
    else collectLoop rest (collectPage page res)

/-- `_collect_assets()` for a given sequence of release pages. -/
def collect_assets (pages : List (List Release)) : Assets := collectLoop pages []

theorem takeDigitsThen_isDigits {ch : Char} {s d r : Str}
    (h : takeDigitsThen ch s = some (d, r)) : isDigits d = true := by
  unfold takeDigitsThen at h
  split at h
  · cases h
  · rename_i x xs c rest htake hdrop
    split at h
    · injection h with h1
      injection h1 with h2 h3
      rw [← h2]
      simp only [isDigits, Bool.and_eq_true, Bool.not_eq_true']
      refine ⟨by rw [htake]; simp, ?_⟩
      exact List.all_eq_true.mpr fun e he => List.mem_takeWhile_imp he
    · cases h
  · cases h

/-- A digit group contains no dot. -/
theorem isDigits_no_dot {d : Str} (h : isDigits d = true) : '.' ∉ d := by
  intro hmem
  simp only [isDigits, Bool.and_eq_true, List.all_eq_true] at h
  have := h.2 '.' hmem
  simp [dot_not_digit] at this

/-- Three digit groups joined by dots match the exact-version grammar. -/
theorem rx_fullver_parts {a b c : Str} (ha : isDigits a = true)
    (hb : isDigits b = true) (hc : isDigits c = true) :
    rx_fullver (a ++ '.' :: (b ++ '.' :: c)) = true := by
  unfold rx_fullver
  rw [splitSep_append_sep (isDigits_no_dot ha),
    splitSep_append_sep (isDigits_no_dot hb),
    splitSep_no_sep (isDigits_no_dot hc)]
  simp [ha, hb, hc]

theorem matchAsset_fullver {name ver : Str} (h : matchAsset name = some ver) :
    rx_fullver ver = true := by
  unfold matchAsset at h
  split at h
  · cases h
  · split at h
    · cases h
    · rename_i d1 r2 h1
      split at h
      · cases h
      · rename_i d2 r3 h2
        split at h
        · cases h
        · rename_i d3 r4 h3
          split at h
          · injection h with h4
            rw [← h4]
            exact rx_fullver_parts (takeDigitsThen_isDigits h1)
              (takeDigitsThen_isDigits h2) (takeDigitsThen_isDigits h3)
          · cases h

/-- `rx_rel_ver` matched at the start of `s` (build-index.py line 74):
literal `cpython-` then the captured `\d+\.\d+\.\d+` with no trailing
anchor, the third group being a greedy digit run. -/
def matchRelVerAt (s : Str) : Option Str :=
  match dropPre (("cpython-").data) s with
  | none => none
  | some r1 =>
    match takeDigitsThen '.' r1 with
    | none => none
    | some (d1, r2) =>
      match takeDigitsThen '.' r2 with
      | none => none
      | some (d2, r3) =>
        match r3.takeWhile isDigitChar with
        | [] => none
        | c :: cs => some (d1 ++ '.' :: (d2 ++ '.' :: (c :: cs)))

/-- `rx_rel_ver.search(s)`: try the anchored match at each position, left
to right. -/
def searchRelVer : Str → Option Str
  | [] => none
  | c :: rest =>
    match matchRelVerAt (c :: rest) with
    | some v => some v
    | none => searchRelVer rest

/-- In-place value update of an existing key (Python dict assignment). -/
def updateA (res : Assets) (k v : Str) : Assets :=
  res.map (fun p => if p.1 = k then (k, v) else p)

def strippedStr : Str := ("stripped").data

/-- The per-asset-URL update of `build_mapping` (build-index.py lines
130–142): keys come from `rx_rel_ver.search`; a missing match skips the
URL; an existing key is only overwritten when the stored URL is a
`stripped` variant and the new one is not. -/
def bmInsert (res : Assets) (url : Str) : Assets :=
  match searchRelVer url with
  | none => res
  | some ver =>
    match lookupA res ver with
    | some old =>
      if containsSub strippedStr old && !containsSub strippedStr url then
        updateA res ver url
      else res
    | none => res ++ [(ver, url)]

/-- The asset-URL loop of `build_mapping`; the traversal order of the
release pages and tag sets is an environment input flattened into `urls`. -/
def bmLoop : List Str → Assets → Assets
  | [], res => res
  | url :: rest, res => bmLoop rest (bmInsert res url)

/-- `build_mapping()` (build-index.py lines 114–146). -/
def build_mapping (urls : List Str) : Assets := bmLoop urls []

theorem matchRelVerAt_fullver {s ver : Str} (h : matchRelVerAt s = some ver) :
    rx_fullver ver = true := by
  unfold matchRelVerAt at h
  split at h
  · cases h
  · split at h
    · cases h
    · rename_i d1 r2 h1
      split at h
      · cases h
      · rename_i d2 r3 h2
        split at h
        · cases h
        · rename_i c cs h3
          injection h with h4
          rw [← h4]
          refine rx_fullver_parts (takeDigitsThen_isDigits h1)
            (takeDigitsThen_isDigits h2) ?_
          simp only [isDigits, Bool.and_eq_true, Bool.not_eq_true']
          refine ⟨by simp, ?_⟩
          refine List.all_eq_true.mpr fun e he => ?_
          rw [← h3] at he
          exact List.mem_takeWhile_imp he

theorem searchRelVer_fullver {s ver : Str} (h : searchRelVer s = some ver) :
    rx_fullver ver = true := by
  induction s with
  | nil => cases h
  | cons c rest ih =>
    unfold searchRelVer at h
    split at h
    · rename_i v hv
      injection h with h1
      rw [← h1]
      exact matchRelVerAt_fullver hv
    · exact ih h

theorem insertIfAbsent_keys {k v : Str} {res : Assets}
    (hk : rx_fullver k = true)
    (hres : ∀ q ∈ res.map Prod.fst, rx_fullver q = true) :
    ∀ q ∈ (insertIfAbsent k v res).map Prod.fst, rx_fullver q = true := by
  intro q hq
  unfold insertIfAbsent at hq
  split at hq
  · exact hres q hq
  · simp only [List.map_append] at hq
    rcases List.mem_append.mp hq with h1 | h1
    · exact hres q h1
    · simp only [List.map_cons, List.map_nil, List.mem_singleton] at h1
      rw [h1]
      exact hk

theorem collectRelease_keys (rel : Release) :
    ∀ res : Assets, (∀ q ∈ res.map Prod.fst, rx_fullver q = true) →
      ∀ q ∈ (collectRelease rel res).map Prod.fst, rx_fullver q = true := by
  induction rel with
  | nil => intro res hres; exact hres
  | cons asset rest ih =>
    intro res hres
    unfold collectRelease
    split
    · exact ih res hres
    · rename_i ver hver
      exact ih _ (insertIfAbsent_keys (matchAsset_fullver hver) hres)

theorem collectPage_keys (page : List Release) :
    ∀ res : Assets, (∀ q ∈ res.map Prod.fst, rx_fullver q = true) →
      ∀ q ∈ (collectPage page res).map Prod.fst, rx_fullver q = true := by
  induction page with
  | nil => intro res hres; exact hres
  | cons rel rest ih =>
    intro res hres
    unfold collectPage
    exact ih _ (collectRelease_keys rel res hres)

theorem collectLoop_keys (pages : List (List Release)) :
    ∀ res : Assets, (∀ q ∈ res.map Prod.fst, rx_fullver q = true) →
      ∀ q ∈ (collectLoop pages res).map Prod.fst, rx_fullver q = true := by
  induction pages with
  | nil => intro res hres; exact hres
  | cons page rest ih =>
    intro res hres
    unfold collectLoop
    split
    · exact hres
    · exact ih _ (collectPage_keys page res hres)

theorem updateA_keys (res : Assets) (k v : Str) :
    (updateA res k v).map Prod.fst = res.map Prod.fst := by
  induction res with
  | nil => rfl
  | cons p rest ih =>
    unfold updateA at ih ⊢
    simp only [List.map_cons, ih]
    split
    · rename_i hpk
      rw [← hpk]
    · rfl

theorem bmInsert_keys {res : Assets} {url : Str}
    (hres : ∀ q ∈ res.map Prod.fst, rx_fullver q = true) :
    ∀ q ∈ (bmInsert res url).map Prod.fst, rx_fullver q = true := by
  intro q hq
  unfold bmInsert at hq
  split at hq
  · exact hres q hq
  · rename_i ver hver
    split at hq
    · split at hq
      · rw [updateA_keys] at hq
        exact hres q hq
      · exact hres q hq
    · simp only [List.map_append, List.map_cons, List.map_nil] at hq
      rcases List.mem_append.mp hq with h1 | h1
      · exact hres q h1
      · simp only [List.mem_singleton] at h1
        rw [h1]
        exact searchRelVer_fullver hver

theorem bmLoop_keys (urls : List Str) :
    ∀ res : Assets, (∀ q ∈ res.map Prod.fst, rx_fullver q = true) →
      ∀ q ∈ (bmLoop urls res).map Prod.fst, rx_fullver q = true := by
  induction urls with
  | nil => intro res hres; exact hres
  | cons url rest ih =>
    intro res hres
    unfold bmLoop
    exact ih _ (bmInsert_keys hres)

theorem collectRelease_cons (asset : Str × Str) (rest : Release) (res : Assets) :
    collectRelease (asset :: rest) res =
      match matchAsset asset.1 with
      | none => collectRelease rest res
      | some ver => collectRelease rest (insertIfAbsent ver asset.2 res) := rfl

theorem collectPage_cons (rel : Release) (rest : List Release) (res : Assets) :
    collectPage (rel :: rest) res = collectPage rest (collectRelease rel res) :=
  rfl

theorem collectLoop_cons (page : List Release) (rest : List (List Release))
    (res : Assets) :
    collectLoop (page :: rest) res =
      if page.isEmpty then res else collectLoop rest (collectPage page res) :=
  rfl

theorem bmLoop_cons (url : Str) (rest : List Str) (res : Assets) :
    bmLoop (url :: rest) res = bmLoop rest (bmInsert res url) := rfl

theorem isEmpty_map {α β : Type} (f : α → β) (l : List α) :
    (l.map f).isEmpty = l.isEmpty := by
  cases l <;> rfl

theorem collectRelease_filter (rel : Release) :
    ∀ res : Assets,
      collectRelease (rel.filter (fun a => (matchAsset a.1).isSome)) res =
        collectRelease rel res := by
  induction rel with
  | nil => intro res; rfl
  | cons asset rest ih =>
    intro res
    rw [collectRelease_cons]
    split
    · rename_i hm
      simp only [List.filter_cons, hm, Option.isSome_none, Bool.false_eq_true,
        if_false]
      exact ih res
    · rename_i ver hm
      simp only [List.filter_cons, hm, Option.isSome_some, if_true]
      rw [collectRelease_cons, hm]
      exact ih _

theorem collectPage_filter (page : List Release) :
    ∀ res : Assets,
      collectPage (page.map (fun rel =>
          rel.filter (fun a => (matchAsset a.1).isSome))) res =
        collectPage page res := by
  induction page with
  | nil => intro res; rfl
  | cons rel rest ih =>
    intro res
    simp only [List.map_cons]
    rw [collectPage_cons, collectPage_cons, collectRelease_filter]
    exact ih _

theorem collectLoop_filter (pages : List (List Release)) :
    ∀ res : Assets,
      collectLoop (pages.map (fun page => page.map (fun rel =>
          rel.filter (fun a => (matchAsset a.1).isSome)))) res =
        collectLoop pages res := by
  induction pages with
  | nil => intro res; rfl
  | cons page rest ih =>
    intro res
    simp only [List.map_cons]
    rw [collectLoop_cons, collectLoop_cons, isEmpty_map]
    split
    · rfl
    · rw [collectPage_filter]
      exact ih _

theorem bmInsert_none {res : Assets} {url : Str}
    (hs : searchRelVer url = none) : bmInsert res url = res := by
  unfold bmInsert
  rw [hs]

theorem bmLoop_filter (urls : List Str) :
    ∀ res : Assets,
      bmLoop (urls.filter (fun u => (searchRelVer u).isSome)) res =
        bmLoop urls res := by
  induction urls with
  | nil => intro res; rfl
  | cons url rest ih =>
    intro res
    cases hs : searchRelVer url with
    | none =>
      simp only [List.filter_cons, hs, Option.isSome_none, Bool.false_eq_true,
        if_false]
      rw [bmLoop_cons, bmInsert_none hs]
      exact ih res
    | some ver =>
      simp only [List.filter_cons, hs, Option.isSome_some, if_true]
      rw [bmLoop_cons, bmLoop_cons]
      exact ih _

/-- C8: every key of the mapping built by `_collect_assets` (cli.py) and of
the one built by `build_mapping` (build-index.py) matches the exact-version
grammar `\d+\.\d+\.\d+`; entries whose identifying string does not match
the version-extracting regex are dropped one by one — removing them from
the input does not change the result — rather than aborting construction. -/
theorem C8_index_keys_wellformed :
    (∀ (pages : List (List Release)) (k : Str),
      k ∈ (collect_assets pages).map Prod.fst → rx_fullver k = true) ∧
    (∀ pages : List (List Release),
      collect_assets (pages.map (fun page => page.map (fun rel =>
        rel.filter (fun a => (matchAsset a.1).isSome)))) =
        collect_assets pages) ∧
    (∀ (urls : List Str) (k : Str),
      k ∈ (build_mapping urls).map Prod.fst → rx_fullver k = true) ∧
    (∀ urls : List Str,
      build_mapping (urls.filter (fun u => (searchRelVer u).isSome)) =
        build_mapping urls) := by
  refine ⟨?_, ?_, ?_, ?_⟩
  · intro pages k hk
    exact collectLoop_keys pages [] (by intro q hq; simp at hq) k hk
  · intro pages
    exact collectLoop_filter pages []
  · intro urls k hk
    exact bmLoop_keys urls [] (by intro q hq; simp at hq) k hk
  · intro urls
    exact bmLoop_filter urls []

/-- A realistic release page for the C8 witness: one conforming asset, one
non-conforming one. -/
def c8Pages : List (List Release) :=
  [[[((("cpython-3.12.1+20240107-x86_64-unknown-linux-gnu-install_only.tar.gz").data),
      ("good-url").data),
     ((("cpython-3.12.1-x86_64-unknown-linux-gnu-debug.tar.zst").data),
      ("bad-url").data)]]]

/-- Witness for C8: the key harvested from the conforming asset matches the
exact-version grammar, and dropping the non-conforming asset leaves the
mapping unchanged. -/
theorem C8_index_keys_wellformed_witness :
    rx_fullver (verStr 3 12 1) = true ∧
    collect_assets (c8Pages.map (fun page => page.map (fun rel =>
      rel.filter (fun a => (matchAsset a.1).isSome)))) =
      collect_assets c8Pages :=
  ⟨C8_index_keys_wellformed.1 c8Pages (verStr 3 12 1) (by decide),
   C8_index_keys_wellformed.2.1 c8Pages⟩

/-- Python `<` on strings: code-point lexicographic order. -/
def pyLt (a b : Str) : Bool := lexLt Char.toNat a b

/-- Python `<=` on strings, as used by `sorted`. -/
def pyLe (a b : Str) : Bool := !pyLt b a

theorem lexLt_append_left {f : α → Nat} :
    ∀ (a x y : List α), lexLt f (a ++ x) (a ++ y) = lexLt f x y := by
  intro a
  induction a with
  | nil => intro x y; rfl
  | cons c a' ih =>
    intro x y
    simp only [List.cons_append, lexLt, Nat.lt_irrefl, if_false]
    exact ih x y

theorem lexLt_self_append {f : α → Nat} :
    ∀ (a r : List α), lexLt f a (a ++ r) = !r.isEmpty := by
  intro a
  induction a with
  | nil =>
    intro r
    cases r <;> rfl
  | cons c a' ih =>
    intro r
    simp only [List.cons_append, lexLt, Nat.lt_irrefl, if_false]
    exact ih r

theorem lexLt_append_self {f : α → Nat} :
    ∀ (a r : List α), lexLt f (a ++ r) a = false := by
  intro a
  induction a with
  | nil =>
    intro r
    cases r <;> rfl
  | cons c a' ih =>
    intro r
    simp only [List.cons_append, lexLt, Nat.lt_irrefl, if_false]
    exact ih r

theorem lexLt_stranger {f : α → Nat} (hf : Function.Injective f) :
    ∀ (u v : List α), ¬ u <+: v → ¬ v <+: u → ∀ t t',
      lexLt f (u ++ t) (v ++ t') = lexLt f u v := by
  intro u
  induction u with
  | nil =>
    intro v hu _ t t'
    exact absurd List.nil_prefix hu
  | cons c u' ih =>
    intro v hu hv t t'
    cases v with
    | nil => exact absurd List.nil_prefix hv
    | cons d v' =>
      by_cases hcd : c = d
      · subst hcd
        have hu' : ¬ u' <+: v' := fun h => hu (List.cons_prefix_cons.mpr ⟨rfl, h⟩)
        have hv' : ¬ v' <+: u' := fun h => hv (List.cons_prefix_cons.mpr ⟨rfl, h⟩)
        simp only [List.cons_append, lexLt, Nat.lt_irrefl, if_false]
        exact ih v' hu' hv' t t'
      · have hfcd : f c ≠ f d := fun h => hcd (hf h)
        simp only [List.cons_append, lexLt]
        rcases Nat.lt_trichotomy (f c) (f d) with h | h | h
        · simp [h]
        · exact absurd h hfcd
        · simp [h, Nat.lt_asymm h]

theorem joinSep_splitSep (sep : Char) : ∀ l : Str,
    joinSep sep (splitSep sep l) = l := by
  intro l
  induction l with
  | nil => rfl
  | cons c rest ih =>
    by_cases hc : c = sep
    · subst hc
      simp only [splitSep, if_pos rfl]
      cases hr : splitSep c rest with
      | nil => exact absurd hr (splitSep_ne_nil c rest)
      | cons g gs =>
        show ([] : Str) ++ c :: joinSep c (g :: gs) = c :: rest
        rw [List.nil_append, ← hr, ih]
    · simp only [splitSep, if_neg hc]
      cases hr : splitSep sep rest with
      | nil => exact absurd hr (splitSep_ne_nil sep rest)
      | cons g gs =>
        cases gs with
        | nil =>
          show c :: g = c :: rest
          have : joinSep sep [g] = rest := by rw [← hr, ih]
          simp only [joinSep] at this
          rw [this]
        | cons g2 gs2 =>
          show (c :: g) ++ sep :: joinSep sep (g2 :: gs2) = c :: rest
          have : joinSep sep (g :: g2 :: gs2) = rest := by rw [← hr, ih]
          simp only [joinSep] at this
          rw [List.cons_append, this]

/-- Any string matching the exact-version grammar decomposes into its three
digit groups. -/
theorem rx_fullver_elim {s : Str} (h : rx_fullver s = true) :
    ∃ a b c, isDigits a = true ∧ isDigits b = true ∧ isDigits c = true ∧
      s = a ++ '.' :: (b ++ '.' :: c) := by
  unfold rx_fullver at h
  split at h
  · rename_i a b c hsplit
    refine ⟨a, b, c, ?_, ?_, ?_, ?_⟩
    · simp only [Bool.and_eq_true] at h
      exact h.1.1
    · simp only [Bool.and_eq_true] at h
      exact h.1.2
    · simp only [Bool.and_eq_true] at h
      exact h.2
    · have hj := joinSep_splitSep '.' s
      rw [hsplit] at hj
      simp only [joinSep] at hj
      rw [← hj]
  · cases h

theorem isDigits_mem {d : Str} (h : isDigits d = true) :
    ∀ c ∈ d, isDigitChar c = true := by
  intro c hc
  simp only [isDigits, Bool.and_eq_true, List.all_eq_true] at h
  exact h.2 c hc

/-- A proper prefix among exact-version strings extends by a nonempty run
of digits (the tail of the last numeric component). -/
theorem fullver_prefix_ext {v1 v2 : Str} (h1 : rx_fullver v1 = true)
    (h2 : rx_fullver v2 = true) (hp : v1 <+: v2) (hne : v1 ≠ v2) :
    ∃ r, v2 = v1 ++ r ∧ r ≠ [] ∧ ∀ c ∈ r, isDigitChar c = true := by
  obtain ⟨a1, b1, c1, ha1, hb1, hc1, he1⟩ := rx_fullver_elim h1
  obtain ⟨a2, b2, c2, ha2, hb2, hc2, he2⟩ := rx_fullver_elim h2
  subst he1 he2
  rw [digitsDotPre (isDigits_mem ha1) (isDigits_mem ha2)] at hp
  obtain ⟨haa, hp'⟩ := hp
  rw [digitsDotPre (isDigits_mem hb1) (isDigits_mem hb2)] at hp'
  obtain ⟨hbb, hp''⟩ := hp'
  obtain ⟨r, hr⟩ := hp''
  refine ⟨r, ?_, ?_, ?_⟩
  · rw [haa, hbb, ← hr]
    simp
  · intro hrnil
    subst hrnil
    apply hne
    rw [haa, hbb, ← hr]
    simp
  · intro c hc
    refine isDigits_mem hc2 c ?_
    rw [← hr]
    exact List.mem_append_right _ hc

/-- Appending the same `/`-headed tail to two exact-version strings does not
change their relative string order: version directories compare inside a
sorted path list exactly as the bare version strings do. -/
theorem pyLt_ver_tail {v1 v2 : Str} (h1 : rx_fullver v1 = true)
    (h2 : rx_fullver v2 = true) (t : Str) :
    pyLt (v1 ++ '/' :: t) (v2 ++ '/' :: t) = pyLt v1 v2 := by
  by_cases heq : v1 = v2
  · subst heq
    unfold pyLt
    rw [lexLt_irrefl, lexLt_irrefl]
  · by_cases hp12 : v1 <+: v2
    · obtain ⟨r, hr, hrne, hrd⟩ := fullver_prefix_ext h1 h2 hp12 heq
      subst hr
      cases r with
      | nil => exact absurd rfl hrne
      | cons rc r' =>
        have hrc : isDigitChar rc = true := hrd rc (by simp)
        have h47 : ('/').toNat < rc.toNat := by
          simp only [isDigitChar, Bool.and_eq_true, decide_eq_true_eq] at hrc
          have hsl : ('/').toNat = 47 := rfl
          omega
        unfold pyLt
        rw [show (v1 ++ rc :: r') ++ '/' :: t = v1 ++ (rc :: (r' ++ '/' :: t)) by
          simp]
        rw [show v1 ++ '/' :: t = v1 ++ ('/' :: t) from rfl, lexLt_append_left]
        rw [lexLt_self_append]
        simp only [lexLt, List.isEmpty_cons, Bool.not_false]
        rw [if_pos h47]
    · by_cases hp21 : v2 <+: v1
      · obtain ⟨r, hr, hrne, hrd⟩ := fullver_prefix_ext h2 h1 hp21
          (fun h => heq h.symm)
        subst hr
        cases r with
        | nil => exact absurd rfl hrne
        | cons rc r' =>
          have hrc : isDigitChar rc = true := hrd rc (by simp)
          have h47 : ('/').toNat < rc.toNat := by
            simp only [isDigitChar, Bool.and_eq_true, decide_eq_true_eq] at hrc
            have hsl : ('/').toNat = 47 := rfl
            omega
          unfold pyLt
          rw [show (v2 ++ rc :: r') ++ '/' :: t = v2 ++ (rc :: (r' ++ '/' :: t)) by
            simp]
          rw [show v2 ++ '/' :: t = v2 ++ ('/' :: t) from rfl, lexLt_append_left]
          rw [lexLt_append_self]
          simp only [lexLt]
          rw [if_neg (by omega), if_pos h47]
      · unfold pyLt
        rw [show v1 ++ '/' :: t = v1 ++ ('/' :: t) from rfl,
          show v2 ++ '/' :: t = v2 ++ ('/' :: t) from rfl,
          lexLt_stranger charToNat_injective v1 v2 hp12 hp21]

/-- `str(path)` up to the constant absolute prefix: components joined by
`/` (the prefix is shared by every compared path and cancels). -/
def joinSlash : FsPath → Str
  | [] => []
  | [c] => c
  | c :: rest => c ++ '/' :: joinSlash rest

theorem joinSlash_cons (c : Str) {rest : FsPath} (h : rest ≠ []) :
    joinSlash (c :: rest) = c ++ '/' :: joinSlash rest := by
  cases rest with
  | nil => exact absurd rfl h
  | cons d r => rfl

theorem joinSlash_append {root l : FsPath} (hr : root ≠ []) (hl : l ≠ []) :
    joinSlash (root ++ l) = joinSlash root ++ '/' :: joinSlash l := by
  induction root with
  | nil => exact absurd rfl hr
  | cons c rest ih =>
    cases rest with
    | nil =>
      rw [List.cons_append, List.nil_append, joinSlash_cons c hl]
      rfl
    | cons d r =>
      rw [List.cons_append,
        joinSlash_cons c (by simp : (d :: r) ++ l ≠ []),
        ih (by simp), joinSlash_cons c (by simp : d :: r ≠ [])]
      simp

/-- Does path `p` match `ISOPY_HOME.glob("*/bin/python")` (cli.py line
155)?  The `*` matches exactly one directory name — any name, hidden
dot-prefixed ones included (pathlib's glob does not skip dotfiles). -/
def globPyMatch (root : FsPath) (p : FsPath) : Bool :=
  root.isPrefixOf p &&
    match p.drop root.length with
    | [_, b, py] => b == binC && py == pythonC
    | _ => false

/-- `_cmd_list` (cli.py lines 154–156): `sorted(ISOPY_HOME.glob("*/bin/python"))`
— the glob hits in filesystem order, sorted by Python's path order, which
compares the path strings; each printed line shows `p.parent.name` (the
literal `bin`) and the full path. -/
def cmd_list (fs : List FsPath) : List FsPath :=
  List.insertionSort (fun p q => pyLe (joinSlash p) (joinSlash q) = true)
    (fs.filter (fun p => globPyMatch ISOPY_HOME p))

theorem globPyMatch_iff {root p : FsPath} :
    globPyMatch root p = true ↔ ∃ v, p = root ++ [v, binC, pythonC] := by
  unfold globPyMatch
  simp only [Bool.and_eq_true]
  constructor
  · rintro ⟨hpre, hmatch⟩
    have hp : p = root ++ p.drop root.length := by
      obtain ⟨t, ht⟩ := List.isPrefixOf_iff_prefix.mp hpre
      rw [← ht, List.drop_left]
    split at hmatch
    · rename_i v b py hdrop
      simp only [Bool.and_eq_true, beq_iff_eq] at hmatch
      obtain ⟨hb, hpy⟩ := hmatch
      refine ⟨v, ?_⟩
      rw [hp, hdrop, hb, hpy]
    · cases hmatch
  · rintro ⟨v, rfl⟩
    refine ⟨?_, ?_⟩
    · exact List.isPrefixOf_iff_prefix.mpr ⟨[v, binC, pythonC], rfl⟩
    · rw [List.drop_left]
      simp

theorem pyLt_asymm {a b : Str} (h : pyLt a b = true) : pyLt b a = false := by
  by_contra hc
  rw [Bool.not_eq_false] at hc
  have hbb : pyLt a a = true := lexLt_trans h hc
  rw [show pyLt a a = lexLt Char.toNat a a from rfl, lexLt_irrefl] at hbb
  cases hbb

theorem pyLe_total (a b : Str) : pyLe a b = true ∨ pyLe b a = true := by
  unfold pyLe
  by_cases h : pyLt b a = true
  · right
    rw [pyLt_asymm h]
    rfl
  · left
    rw [Bool.not_eq_true] at h
    rw [h]
    rfl

theorem pyLe_trans {a b c : Str} (h1 : pyLe a b = true) (h2 : pyLe b c = true) :
    pyLe a c = true := by
  unfold pyLe at *
  rw [Bool.not_eq_true'] at h1 h2 ⊢
  by_contra hc
  rw [Bool.not_eq_false] at hc
  have h3 : pyLt c b = true := lexLt_of_lt_of_not_lt charToNat_injective hc h1
  rw [h3] at h2
  cases h2

theorem pyLe_path_version {v w : Str} (hv : rx_fullver v = true)
    (hw : rx_fullver w = true) (hne : v ≠ w)
    (hle : pyLe (joinSlash (ISOPY_HOME ++ [v, binC, pythonC]))
      (joinSlash (ISOPY_HOME ++ [w, binC, pythonC])) = true) :
    pyLt v w = true := by
  have hJ : ∀ u : Str, joinSlash (ISOPY_HOME ++ [u, binC, pythonC]) =
      (joinSlash ISOPY_HOME ++ ['/']) ++
        (u ++ '/' :: (binC ++ '/' :: pythonC)) := by
    intro u
    rw [joinSlash_append (by simp [ISOPY_HOME]) (by simp),
      show joinSlash [u, binC, pythonC] =
        u ++ '/' :: (binC ++ '/' :: pythonC) from rfl,
      List.append_cons]
  rw [hJ v, hJ w] at hle
  unfold pyLe at hle
  rw [Bool.not_eq_true'] at hle
  unfold pyLt at hle
  rw [lexLt_append_left] at hle
  have ht := pyLt_ver_tail hw hv (binC ++ '/' :: pythonC)
  unfold pyLt at ht
  rw [ht] at hle
  rcases lexLt_trichotomy charToNat_injective v w with h | h | h
  · exact h
  · exact absurd h hne
  · rw [h] at hle
    cases hle

/-- C9: the listing of `_cmd_list` contains exactly the glob hits — the
immediate version subdirectories of the install root whose `bin/python`
exists — and consecutive listed paths carry strictly ascending version
strings.  The hypothesis restricts the root to isopy-managed content:
every glob hit — including a hidden directory, which pathlib's `*` does
match — is a version-named directory holding the executable. -/
theorem C9_list_sorted (fs : List FsPath) (hnd : fs.Nodup)
    (hshape : ∀ p ∈ fs, globPyMatch ISOPY_HOME p = true →
      ∃ v, p = ISOPY_HOME ++ [v, binC, pythonC] ∧ rx_fullver v = true) :
    (∀ p, p ∈ cmd_list fs ↔ p ∈ fs ∧ globPyMatch ISOPY_HOME p = true) ∧
    (∀ p ∈ cmd_list fs, ∃ v, p = ISOPY_HOME ++ [v, binC, pythonC] ∧
      rx_fullver v = true ∧ p ∈ fs) ∧
    (cmd_list fs).Pairwise (fun p q => ∀ v w,
      p = ISOPY_HOME ++ [v, binC, pythonC] → rx_fullver v = true →
      q = ISOPY_HOME ++ [w, binC, pythonC] → rx_fullver w = true →
      pyLt v w = true) := by
  have hperm := List.perm_insertionSort
    (fun p q => pyLe (joinSlash p) (joinSlash q) = true)
    (fs.filter (fun p => globPyMatch ISOPY_HOME p))
  have hmem : ∀ p, p ∈ cmd_list fs ↔
      p ∈ fs ∧ globPyMatch ISOPY_HOME p = true := by
    intro p
    unfold cmd_list
    rw [hperm.mem_iff]
    simp [List.mem_filter]
  refine ⟨hmem, ?_, ?_⟩
  · intro p hp
    obtain ⟨hpfs, hpg⟩ := (hmem p).mp hp
    obtain ⟨v, hv1, hv2⟩ := hshape p hpfs hpg
    exact ⟨v, hv1, hv2, hpfs⟩
  · haveI htot : IsTotal FsPath
        (fun p q => pyLe (joinSlash p) (joinSlash q) = true) :=
      ⟨fun p q => pyLe_total _ _⟩
    haveI htr : IsTrans FsPath
        (fun p q => pyLe (joinSlash p) (joinSlash q) = true) :=
      ⟨fun p q r h1 h2 => pyLe_trans h1 h2⟩
    have hsorted := List.sorted_insertionSort
      (fun p q => pyLe (joinSlash p) (joinSlash q) = true)
      (fs.filter (fun p => globPyMatch ISOPY_HOME p))
    have hnodup : (cmd_list fs).Nodup :=
      (List.Perm.nodup_iff hperm).mpr (hnd.filter _)
    have hpair := List.Pairwise.and hsorted hnodup
    refine hpair.imp ?_
    intro p q hpq v w hp hv hq hw
    obtain ⟨hle, hne⟩ := hpq
    have hvw : v ≠ w := by
      rintro rfl
      apply hne
      rw [hp, hq]
    rw [hp, hq] at hle
    exact pyLe_path_version hv hw hvw hle

/-- Filesystem for the C9 witness: version directories 3.9.9 and 3.10.0
with executables (deliberately out of order), one version directory without
the executable, and an unrelated file. -/
def c9Fs : List FsPath :=
  [ISOPY_HOME ++ [verStr 3 9 9, binC, pythonC],
   ISOPY_HOME ++ [verStr 3 10 0, binC, pythonC],
   ISOPY_HOME ++ [verStr 3 11 0, ("README").data],
   [("etc").data, ("hosts").data]]

/-- Witness for C9: only the two directories holding `bin/python` are
listed, and ascending version-string order puts `3.10.0` before `3.9.9`
(string order, as the claim and the code both use). -/
theorem C9_list_sorted_witness :
    (∀ p, p ∈ cmd_list c9Fs ↔ p ∈ c9Fs ∧ globPyMatch ISOPY_HOME p = true) ∧
    (∀ p ∈ cmd_list c9Fs, ∃ v, p = ISOPY_HOME ++ [v, binC, pythonC] ∧
      rx_fullver v = true ∧ p ∈ c9Fs) ∧
    (cmd_list c9Fs).Pairwise (fun p q => ∀ v w,
      p = ISOPY_HOME ++ [v, binC, pythonC] → rx_fullver v = true →
      q = ISOPY_HOME ++ [w, binC, pythonC] → rx_fullver w = true →
      pyLt v w = true) :=
  C9_list_sorted c9Fs (by decide)
    (by
      intro p hp hg
      simp only [c9Fs, List.mem_cons, List.not_mem_nil, or_false] at hp
      rcases hp with h | h | h | h
      · exact ⟨verStr 3 9 9, h, by decide⟩
      · exact ⟨verStr 3 10 0, h, by decide⟩
      · rw [h] at hg
        exact absurd hg (by decide)
      · rw [h] at hg
        exact absurd hg (by decide))

/-- The concrete listing of the C9 witness filesystem: exactly the two
executable-bearing version directories, `3.10.0` first. -/
theorem C9_list_sorted_order :
    cmd_list c9Fs =
      [ISOPY_HOME ++ [verStr 3 10 0, binC, pythonC],
       ISOPY_HOME ++ [verStr 3 9 9, binC, pythonC]] := by
  decide
